import Mathlib

set_option maxHeartbeats 4000000
set_option maxRecDepth 100000

/-!
Shallow embedding of the tundraix language implementation (Rust sources:
`tokenizer.rs`, `value.rs`, `chunk.rs`, `compiler.rs`, `vm.rs`) together
with theorems checking the specification's claims about it.

Modelling conventions:
* Rust `f64` numbers are modelled as rationals (`Rat`); every property
  proved here concerns type dispatch, stack discipline, control flow and
  string formatting, none of which depend on floating-point rounding.
* `u8` arithmetic is modelled as `Nat` with explicit `% 256` where the
  source truncates (release-build wrapping semantics).
* The recursive-descent compiler and the VM loop are given an explicit
  fuel parameter; running out of fuel is a distinct outcome, never an
  ordinary diagnostic.
* `unreachable!()` in the source (and `Option::unwrap` on `None`) is
  modelled as the distinct outcomes `PErr.bug` / `RunResult.vmCrash`.
* The caller-supplied print sink is modelled as an output log that always
  succeeds (the behaviour of the sink the CLI entry point supplies).
-/

/-- Diagnostic format shared by the two error sites of the source
(`Parser::error_at` in compiler.rs and `VM::error` in vm.rs):
`"[line <N>] Error: <message>"`. -/
def fmtDiag (n : Nat) (msg : String) : String :=
  "[line " ++ toString n ++ "] Error: " ++ msg

/-- `value.rs`: the runtime value tagged union. -/
inductive Value where
  | bool (b : Bool)
  | number (q : Rat)
  | string (s : String)
  | nil
deriving DecidableEq, Repr

/-- `Value::as_bool` (the `unreachable!()` arm returns a junk value;
it is never hit on the paths modelled here). -/
def Value.as_bool : Value → Bool
  | .bool b => b
  | _ => false

/-- `Value::as_number`. -/
def Value.as_number : Value → Rat
  | .number q => q
  | _ => 0

/-- `Value::as_string`. -/
def Value.as_string : Value → String
  | .string s => s
  | _ => ""

/-- `Value::is_bool`. -/
def Value.is_bool : Value → Bool
  | .bool _ => true
  | _ => false

/-- `Value::is_number`. -/
def Value.is_number : Value → Bool
  | .number _ => true
  | _ => false

/-- `Value::is_string`. -/
def Value.is_string : Value → Bool
  | .string _ => true
  | _ => false

/-- `Value::is_nil`. -/
def Value.is_nil : Value → Bool
  | .nil => true
  | _ => false

/-- The `Display` impl of `Value`: `true`/`false`, number in decimal,
string verbatim, `nil`.  Integral numbers render with no fraction, as
Rust's `f64` `Display` does; the rendering of non-integral numbers is
abstracted (no claim depends on it). -/
def Value.to_text : Value → String
  | .bool b => if b then "true" else "false"
  | .number q => if q.den = 1 then toString q.num
                 else toString q.num ++ "/" ++ toString q.den
  | .string s => s
  | .nil => "nil"

/-- `VM::is_falsey` from vm.rs: `nil` and boolean `false` only. -/
def is_falsey (v : Value) : Bool :=
  v.is_nil || (v.is_bool && !v.as_bool)

/-- `chunk.rs`: one instruction-stream byte tagged with its source line. -/
structure Byte where
  byte : Nat
  line : Nat
deriving DecidableEq, Repr

/-- `chunk.rs`: the opcode enumeration, in declaration order (so the
`#[repr(u8)]` discriminants are 0..18). -/
inductive OpCode where
  | Return
  | Constant
  | Nil
  | True
  | False
  | Negate
  | Add
  | Subtract
  | Multiply
  | Divide
  | Not
  | Equal
  | Greater
  | Less
  | Print
  | Pop
  | DefineGlobal
  | GetGlobal
  | SetGlobal
deriving DecidableEq, Repr

/-- `OpCode as u8`: the discriminant of each opcode. -/
def OpCode.toByte : OpCode → Nat
  | .Return => 0
  | .Constant => 1
  | .Nil => 2
  | .True => 3
  | .False => 4
  | .Negate => 5
  | .Add => 6
  | .Subtract => 7
  | .Multiply => 8
  | .Divide => 9
  | .Not => 10
  | .Equal => 11
  | .Greater => 12
  | .Less => 13
  | .Print => 14
  | .Pop => 15
  | .DefineGlobal => 16
  | .GetGlobal => 17
  | .SetGlobal => 18

/-- `OpCode::try_from` (via `num_enum::TryFromPrimitive`): decode a raw
byte back to an opcode; `none` for bytes outside 0..18. -/
def decodeOp : Nat → Option OpCode
  | 0 => some .Return
  | 1 => some .Constant
  | 2 => some .Nil
  | 3 => some .True
  | 4 => some .False
  | 5 => some .Negate
  | 6 => some .Add
  | 7 => some .Subtract
  | 8 => some .Multiply
  | 9 => some .Divide
  | 10 => some .Not
  | 11 => some .Equal
  | 12 => some .Greater
  | 13 => some .Less
  | 14 => some .Print
  | 15 => some .Pop
  | 16 => some .DefineGlobal
  | 17 => some .GetGlobal
  | 18 => some .SetGlobal
  | _ => none

/-- `chunk.rs`: a chunk pairs the instruction stream with the constant
pool (`ValueArray` is inlined as the `value_array` list). -/
structure Chunk where
  code : List Byte
  value_array : List Value
deriving DecidableEq, Repr

/-- `Chunk::new`. -/
def Chunk.new : Chunk := ⟨[], []⟩

/-- `n as u8`: truncation of a `usize` to `u8`. -/
def u8cast (n : Nat) : Nat := n % 256

/-- Wrapping `u8` subtraction of one, the release-build semantics of the
`- 1` in `ValueArray::write_value`. -/
def u8subOne (n : Nat) : Nat := (n + 255) % 256

/-- `Chunk::write_byte`. -/
def Chunk.write_byte (c : Chunk) (b : Byte) : Chunk :=
  {c with code := c.code ++ [b]}

/-- `ValueArray::write_value` / `Chunk::write_value`: push the value and
return `self.values.len() as u8 - 1` — the length is truncated to `u8`
BEFORE the subtraction, so the returned index wraps around once the pool
exceeds 256 entries. -/
def Chunk.write_value (c : Chunk) (v : Value) : Nat × Chunk :=
  let vs := c.value_array ++ [v]
  (u8subOne (u8cast vs.length), {c with value_array := vs})

/-- `Chunk::get_byte` (the source indexes unchecked and would panic; the
out-of-range case is exposed as `none`). -/
def Chunk.get_byte? (c : Chunk) (i : Nat) : Option Byte :=
  c.code[i]?

/-- `ValueArray::get_value` / `Chunk::get_value`, `none` for the panic
case. -/
def Chunk.get_value? (c : Chunk) (i : Nat) : Option Value :=
  c.value_array[i]?

/-- `tokenizer.rs`: the token kinds. -/
inductive TokenType where
  | LParen
  | RParen
  | LBrace
  | RBrace
  | Plus
  | Minus
  | Slash
  | Asterisk
  | Coma
  | Dot
  | Semicolon
  | Bang
  | BangEq
  | Less
  | LessEq
  | Greater
  | GreaterEq
  | Eq
  | EqEq
  | Ident
  | String
  | Number
  | And
  | Or
  | Class
  | Super
  | This
  | If
  | Else
  | True
  | False
  | Nil
  | For
  | While
  | Fun
  | Return
  | Var
  | Print
  | Error
  | EndOfFile
deriving DecidableEq, Repr

/-- `tokenizer.rs`: a token. -/
structure Token where
  ty : TokenType
  text : String
  line : Nat
deriving DecidableEq, Repr

/-- `Token::new`. -/
def Token.new (ty : TokenType) (text : String) (line : Nat) : Token :=
  ⟨ty, text, line⟩

/-- `Token::new_no_text`. -/
def Token.new_no_text (ty : TokenType) (line : Nat) : Token :=
  Token.new ty "" line

/-- `tokenizer.rs`: the tokenizer state.  The source text is modelled as
its character sequence (the Rust code itself mixes byte lengths and char
indices, which coincide on the ASCII programs of this language). -/
structure Tokenizer where
  current : Nat
  start : Nat
  line : Nat
  source : List Char
deriving DecidableEq, Repr

/-- `Tokenizer::new`. -/
def Tokenizer.new (source : String) : Tokenizer :=
  ⟨0, 0, 1, source.toList⟩

/-- `Tokenizer::is_at_end`. -/
def Tokenizer.is_at_end (t : Tokenizer) : Bool :=
  decide (t.source.length ≤ t.current)

/-- `Tokenizer::get_char`: `'\0'` out of range. -/
def Tokenizer.get_char (t : Tokenizer) (idx : Nat) : Char :=
  t.source.getD idx (Char.ofNat 0)

/-- `Tokenizer::peek`. -/
def Tokenizer.peek (t : Tokenizer) : Char :=
  t.get_char t.current

/-- `Tokenizer::peek_next`. -/
def Tokenizer.peek_next (t : Tokenizer) : Char :=
  t.get_char (t.current + 1)

/-- Cursor advance without reading (the state effect of
`Tokenizer::advance`). -/
def Tokenizer.adv1 (t : Tokenizer) : Tokenizer :=
  {t with current := t.current + 1}

/-- `Tokenizer::advance`: bump the cursor, return the character passed. -/
def Tokenizer.advance (t : Tokenizer) : Char × Tokenizer :=
  (t.get_char t.current, t.adv1)

/-- `Tokenizer::make_token`. -/
def Tokenizer.make_token (t : Tokenizer) (ty : TokenType) : Token :=
  Token.new_no_text ty t.line

/-- `Tokenizer::make_token_text`. -/
def Tokenizer.make_token_text (t : Tokenizer) (ty : TokenType) (text : String) : Token :=
  Token.new ty text t.line

/-- `Tokenizer::make_error`. -/
def Tokenizer.make_error (t : Tokenizer) (msg : String) : Token :=
  t.make_token_text .Error msg

/-- `Tokenizer::match_char`. -/
def Tokenizer.match_char (t : Tokenizer) (expected : Char) : Bool × Tokenizer :=
  if t.is_at_end then (false, t)
  else if t.get_char t.current ≠ expected then (false, t)
  else (true, t.adv1)

/-- The inner loop of the `//`-comment branch of
`Tokenizer::skip_whitespace`: advance until a newline or end of input. -/
def skipComment : Nat → Tokenizer → Tokenizer
  | 0, t => t
  | fuel+1, t =>
    if t.peek ≠ '\n' ∧ ¬ t.is_at_end then skipComment fuel t.adv1
    else t

/-- `Tokenizer::skip_whitespace`, fuel-indexed (each continuing
iteration advances the cursor, so `source.length + 2` fuel always
suffices). -/
def skipWs : Nat → Tokenizer → Tokenizer
  | 0, t => t
  | fuel+1, t =>
    let c := t.peek
    if c = ' ' ∨ c = '\r' ∨ c = '\t' then skipWs fuel t.adv1
    else if c = '\n' then skipWs fuel {t.adv1 with line := t.line + 1}
    else if c = '/' ∧ t.peek_next = '/' then
      skipWs fuel (skipComment (t.source.length + 2) t)
    else t

/-- Standard fuel for the scanning loops: more than the number of
characters that can still be consumed. -/
def Tokenizer.scanFuel (t : Tokenizer) : Nat := t.source.length + 2

/-- `c.is_digit(10)`-style test used by the tokenizer (`is_digit`). -/
def isDigitChar (c : Char) : Bool := '0' ≤ c ∧ c ≤ '9'

/-- `Tokenizer::is_alpha`. -/
def isAlphaChar (c : Char) : Bool :=
  ('a' ≤ c ∧ c ≤ 'z') ∨ ('A' ≤ c ∧ c ≤ 'Z') ∨ c = '_'

/-- Advance while the current character is a digit (the digit-run loops
of the number branch of `scan_token`). -/
def scanDigits : Nat → Tokenizer → Tokenizer
  | 0, t => t
  | fuel+1, t =>
    if isDigitChar t.peek then scanDigits fuel t.adv1
    else t

/-- Advance while the current character is alphanumeric or `_` (the
identifier branch of `scan_token`). -/
def scanIdentChars : Nat → Tokenizer → Tokenizer
  | 0, t => t
  | fuel+1, t =>
    if isAlphaChar t.peek ∨ isDigitChar t.peek then scanIdentChars fuel t.adv1
    else t

/-- The source slice `&self.source[a..b]` as a string. -/
def Tokenizer.slice (t : Tokenizer) (a b : Nat) : String :=
  String.mk ((t.source.drop a).take (b - a))

/-- `Tokenizer::identifier_type`: the keyword table. -/
def identifier_type (content : String) : TokenType :=
  match content with
  | "and" => .And
  | "class" => .Class
  | "else" => .Else
  | "false" => .False
  | "for" => .For
  | "fun" => .Fun
  | "if" => .If
  | "nil" => .Nil
  | "or" => .Or
  | "print" => .Print
  | "return" => .Return
  | "super" => .Super
  | "this" => .This
  | "true" => .True
  | "var" => .Var
  | "while" => .While
  | _ => .Ident

/-- The string-literal loop of `Tokenizer::string`: advance (tracking
newlines) until the closing quote or end of input. -/
def scanStringChars : Nat → Tokenizer → Tokenizer
  | 0, t => t
  | fuel+1, t =>
    if t.peek ≠ '"' ∧ ¬ t.is_at_end then
      if t.peek = '\n' then scanStringChars fuel {t.adv1 with line := t.line + 1}
      else scanStringChars fuel t.adv1
    else t

/-- `Tokenizer::string` (the string-literal scanner). -/
def Tokenizer.stringTok (t : Tokenizer) : Token × Tokenizer :=
  let t := scanStringChars t.scanFuel t
  if t.is_at_end then (t.make_error "Unterminated string", t)
  else
    let t := t.adv1
    (Token.new .String (t.slice (t.start + 1) (t.current - 1)) t.line, t)

/-- The number branch of `scan_token`: digit run, optional `.` followed
by a digit run. -/
def Tokenizer.numberTok (t : Tokenizer) : Token × Tokenizer :=
  let t := scanDigits t.scanFuel t
  let t :=
    if t.peek = '.' ∧ isDigitChar t.peek_next then
      scanDigits t.scanFuel t.adv1
    else t
  (t.make_token_text .Number (t.slice t.start t.current), t)

/-- The identifier/keyword branch of `scan_token`. -/
def Tokenizer.identTok (t : Tokenizer) : Token × Tokenizer :=
  let t := scanIdentChars t.scanFuel t
  (t.make_token_text (identifier_type (t.slice t.start t.current)) (t.slice t.start t.current), t)

/-- Two-character-operator helper: the `'!'`/`'='`/`'<'`/`'>'` arms of
`scan_token`. -/
def Tokenizer.twoChar (t : Tokenizer) (two : TokenType) (one : TokenType) :
    Token × Tokenizer :=
  let (m, t) := t.match_char '='
  if m then (t.make_token two, t) else (t.make_token one, t)

/-- `Tokenizer::scan_token`. -/
def Tokenizer.scan_token (t : Tokenizer) : Token × Tokenizer :=
  let t := skipWs t.scanFuel t
  let t := {t with start := t.current}
  if t.is_at_end then (t.make_token .EndOfFile, t)
  else
    let (c, t) := t.advance
    if isDigitChar c then t.numberTok
    else if isAlphaChar c then t.identTok
    else if c = '(' then (t.make_token .LParen, t)
    else if c = ')' then (t.make_token .RParen, t)
    else if c = '{' then (t.make_token .LBrace, t)
    else if c = '}' then (t.make_token .RBrace, t)
    else if c = '+' then (t.make_token .Plus, t)
    else if c = '-' then (t.make_token .Minus, t)
    else if c = '*' then (t.make_token .Asterisk, t)
    else if c = '/' then (t.make_token .Slash, t)
    else if c = ';' then (t.make_token .Semicolon, t)
    else if c = '!' then t.twoChar .BangEq .Bang
    else if c = '=' then t.twoChar .EqEq .Eq
    else if c = '<' then t.twoChar .LessEq .Less
    else if c = '>' then t.twoChar .GreaterEq .Greater
    else if c = '"' then t.stringTok
    else (t.make_error ("Unexpected character '" ++ String.mk [c] ++ "'"), t)

/-- Iterated scanning: `scanStream t n` is the result of the `(n+1)`-th
call to `scan_token` starting from state `t`. -/
def scanStream (t : Tokenizer) : Nat → Token × Tokenizer
  | 0 => t.scan_token
  | n+1 => (scanStream t n).2.scan_token

/-- `compiler.rs`: parser state, mirroring `struct Parser`. -/
structure Parser where
  tokenizer : Tokenizer
  chunk : Chunk
  current : Token
  previous : Token
deriving DecidableEq, Repr

/-- `Parser::new`. -/
def Parser.new (code : String) : Parser :=
  ⟨Tokenizer.new code, Chunk.new,
   Token.new_no_text .EndOfFile 0, Token.new_no_text .EndOfFile 0⟩

/-- Compilation failure: a formatted diagnostic, fuel exhaustion (an
artefact of the embedding, not of the source), or `bug` for the
`unreachable!()` / `unwrap`-panic paths of the source. -/
inductive PErr where
  | diag (msg : String)
  | noFuel
  | bug
deriving DecidableEq, Repr

/-- `Parser::error_at` (also the body of `error` / `error_at_current`):
build the formatted diagnostic for a token. -/
def error_at (tok : Token) (msg : String) : PErr :=
  .diag (fmtDiag tok.line msg)

/-- `Parser::advance`: shift `current` into `previous`, scan the next
token, and fail on an `Error` token with its text as the message. -/
def Parser.advanceP (p : Parser) : Except PErr Parser :=
  let r := p.tokenizer.scan_token
  let p' : Parser := {p with tokenizer := r.2, previous := p.current, current := r.1}
  if p'.current.ty = .Error then .error (error_at p'.current p'.current.text)
  else .ok p'

/-- `Parser::check`. -/
def Parser.check (p : Parser) (ty : TokenType) : Bool :=
  p.current.ty = ty

/-- `Parser::match_tok`. -/
def Parser.match_tok (p : Parser) (ty : TokenType) : Except PErr (Bool × Parser) :=
  if p.check ty then do
    let p ← p.advanceP
    .ok (true, p)
  else .ok (false, p)

/-- `Parser::consume`. -/
def Parser.consume (p : Parser) (ty : TokenType) (msg : String) : Except PErr Parser :=
  if p.current.ty = ty then p.advanceP
  else .error (error_at p.current msg)

/-- `Parser::write_byte`: append one byte tagged with the previous
token's line. -/
def Parser.write_byte (p : Parser) (b : Nat) : Parser :=
  {p with chunk := p.chunk.write_byte ⟨b, p.previous.line⟩}

/-- `Parser::write_bytes`. -/
def Parser.write_bytes (p : Parser) (b1 b2 : Nat) : Parser :=
  (p.write_byte b1).write_byte b2

/-- `Parser::make_constant`: append to the constant pool, then apply the
(dead, since a `u8` can never exceed `u8::MAX`) overflow check. -/
def Parser.make_constant (p : Parser) (v : Value) : Except PErr (Nat × Parser) :=
  let r := p.chunk.write_value v
  let p' : Parser := {p with chunk := r.2}
  if r.1 > 255 then .error (error_at p'.previous "Too many constants in one chunk.")
  else .ok (r.1, p')

/-- `Parser::write_constant`. -/
def Parser.write_constant (p : Parser) (v : Value) : Except PErr Parser := do
  let (idx, p) ← p.make_constant v
  .ok (p.write_bytes OpCode.Constant.toByte idx)

/-- `Parser::identifier_constant`: intern the identifier's text as a
string constant. -/
def Parser.identifier_constant (p : Parser) (tok : Token) : Except PErr (Nat × Parser) :=
  p.make_constant (.string tok.text)

/-- `Parser::parse_variable`. -/
def Parser.parse_variable (p : Parser) (msg : String) : Except PErr (Nat × Parser) := do
  let p ← p.consume .Ident msg
  p.identifier_constant p.previous

/-- `Parser::define_variable`. -/
def Parser.define_variable (p : Parser) (global : Nat) : Parser :=
  p.write_bytes OpCode.DefineGlobal.toByte global

/-- Digit-string value (the integer part of `str::parse::<f64>` on the
tokenizer's digit runs). -/
def digitsVal (cs : List Char) : Nat :=
  cs.foldl (fun a c => a * 10 + (c.toNat - 48)) 0

/-- `text.parse::<f64>().unwrap()` on a token of the form
`digits[.digits]`, modelled exactly on such texts (rational value):
integer part, plus fraction part scaled by its length if a `.` is
present. -/
def parseNumber (s : String) : Rat :=
  let cs := s.toList
  let ipart := cs.takeWhile (fun c => c ≠ '.')
  match cs.dropWhile (fun c => c ≠ '.') with
  | [] => (digitsVal ipart : Rat)
  | _ :: fpart => (digitsVal ipart : Rat) +
      (digitsVal fpart : Rat) / ((10 : Rat) ^ fpart.length)

/-- `Parser::number` (prefix handler for numeric literals). -/
def Parser.numberFn (p : Parser) : Except PErr Parser :=
  match p.previous.ty with
  | .Number => p.write_constant (.number (parseNumber p.previous.text))
  | _ => .error .bug

/-- `Parser::literal` (prefix handler for `true`/`false`/`nil`). -/
def Parser.literalFn (p : Parser) : Except PErr Parser :=
  match p.previous.ty with
  | .False => .ok (p.write_byte OpCode.False.toByte)
  | .True => .ok (p.write_byte OpCode.True.toByte)
  | .Nil => .ok (p.write_byte OpCode.Nil.toByte)
  | _ => .error .bug

/-- `Parser::string` (prefix handler for string literals). -/
def Parser.stringFn (p : Parser) : Except PErr Parser :=
  match p.previous.ty with
  | .String => p.write_constant (.string p.previous.text)
  | _ => .error .bug

/-- Tags for the prefix handlers appearing in the parse-rule table. -/
inductive PrefixFn where
  | grouping
  | unaryFn
  | numberFn
  | literalFn
  | stringFn
  | variableFn
deriving DecidableEq, Repr

/-- One row of the Pratt table: optional prefix handler, whether the
infix handler is present (`binary` is the only infix handler in the
source), and the precedence (`Precedence as u8`: None 0, Assignment 1,
Or 2, And 3, Equality 4, Comparison 5, Term 6, Factor 7, Unary 8,
Call 9, Primary 10). -/
structure ParseRule where
  pfx : Option PrefixFn
  ifx : Bool
  prec : Nat
deriving DecidableEq, Repr

/-- `Parser::get_parse_rule`. -/
def get_parse_rule : TokenType → ParseRule
  | .LParen => ⟨some .grouping, false, 0⟩
  | .Minus => ⟨some .unaryFn, true, 6⟩
  | .Plus => ⟨none, true, 6⟩
  | .Semicolon => ⟨none, false, 0⟩
  | .Slash => ⟨none, true, 7⟩
  | .Asterisk => ⟨none, true, 7⟩
  | .Number => ⟨some .numberFn, false, 0⟩
  | .Bang => ⟨some .unaryFn, false, 0⟩
  | .BangEq => ⟨none, true, 4⟩
  | .EqEq => ⟨none, true, 4⟩
  | .Greater => ⟨none, true, 5⟩
  | .GreaterEq => ⟨none, true, 5⟩
  | .Less => ⟨none, true, 5⟩
  | .LessEq => ⟨none, true, 5⟩
  | .False => ⟨some .literalFn, false, 0⟩
  | .True => ⟨some .literalFn, false, 0⟩
  | .Nil => ⟨some .literalFn, false, 0⟩
  | .String => ⟨some .stringFn, false, 0⟩
  | .Ident => ⟨some .variableFn, false, 0⟩
  | _ => ⟨none, false, 0⟩

/-- The mutually recursive part of the compiler, as call tags for the
single fuel-indexed interpreter `parseStep`. -/
inductive PCall where
  | decl
  | varDecl
  | stmt
  | blockLoop
  | exprStmt
  | printStmt
  | expr
  | parsePrec (prec : Nat)
  | infixStep (prec : Nat) (canAssign : Bool)
  | prefixRun (f : PrefixFn) (canAssign : Bool)
  | binaryRun
  | namedVar (name : Token) (canAssign : Bool)
  | topLoop
deriving DecidableEq, Repr

/-- The recursive compiler core: `declaration`, `var_declaration`,
`statement`, the block loop, `expression_statement`, `print_statement`,
`expression`, `parse_precedence` (split into its prefix part and its
infix loop `infixStep`), the prefix handlers that recurse, `binary` and
`named_variable`, plus the top-level declaration loop of `parse` —
each body transcribed from compiler.rs, with fuel consumed on every
recursive call. -/
def parseStep : Nat → PCall → Parser → Except PErr Parser
  | 0, _, _ => .error .noFuel
  | fuel+1, c, p =>
    match c with
    | .decl => do
        let (m, p) ← p.match_tok .Var
        if m then parseStep fuel .varDecl p else parseStep fuel .stmt p
    | .varDecl => do
        let (global, p) ← p.parse_variable "Expected variable name."
        let (m, p) ← p.match_tok .Eq
        let p ← if m then parseStep fuel .expr p
                else .ok (p.write_byte OpCode.Nil.toByte)
        let p ← p.consume .Semicolon "Expected ';' after variable declaration."
        .ok (p.define_variable global)
    | .stmt => do
        let (m, p) ← p.match_tok .Print
        if m then parseStep fuel .printStmt p
        else do
          let (m2, p) ← p.match_tok .LBrace
          if m2 then do
            let p ← parseStep fuel .blockLoop p
            p.consume .RBrace "Expect '(' after block."
          else parseStep fuel .exprStmt p
    | .blockLoop =>
        if ¬ p.check .RBrace ∧ ¬ p.check .EndOfFile then do
          let p ← parseStep fuel .decl p
          parseStep fuel .blockLoop p
        else .ok p
    | .exprStmt => do
        let p ← parseStep fuel .expr p
        let p ← p.consume .Semicolon "Expect ';' after expression."
        .ok (p.write_byte OpCode.Pop.toByte)
    | .printStmt => do
        let p ← parseStep fuel .expr p
        let p ← p.consume .Semicolon "Expected ';' after value."
        .ok (p.write_byte OpCode.Print.toByte)
    | .expr => parseStep fuel (.parsePrec 1) p
    | .parsePrec prec => do
        let p ← p.advanceP
        match (get_parse_rule p.previous.ty).pfx with
        | none => .error (error_at p.previous "Expected expression.")
        | some pf => do
            let p ← parseStep fuel (.prefixRun pf (prec ≤ 1)) p
            parseStep fuel (.infixStep prec (prec ≤ 1)) p
    | .infixStep prec ca =>
        if prec ≤ (get_parse_rule p.current.ty).prec then do
          let p ← p.advanceP
          if (get_parse_rule p.previous.ty).ifx then do
            let p ← parseStep fuel .binaryRun p
            parseStep fuel (.infixStep prec ca) p
          else .error .bug
        else .ok p
    | .prefixRun pf ca =>
        match pf with
        | .grouping => do
            let p ← parseStep fuel .expr p
            p.consume .RParen "Expected ')' after expression."
        | .unaryFn => do
            let opTy := p.previous.ty
            let p ← parseStep fuel (.parsePrec 8) p
            match opTy with
            | .Minus => .ok (p.write_byte OpCode.Negate.toByte)
            | .Bang => .ok (p.write_byte OpCode.Not.toByte)
            | _ => .error .bug
        | .numberFn => p.numberFn
        | .literalFn => p.literalFn
        | .stringFn => p.stringFn
        | .variableFn => parseStep fuel (.namedVar p.previous ca) p
    | .binaryRun => do
        let opTy := p.previous.ty
        let p ← parseStep fuel (.parsePrec ((get_parse_rule opTy).prec + 1)) p
        match opTy with
        | .Plus => .ok (p.write_byte OpCode.Add.toByte)
        | .Minus => .ok (p.write_byte OpCode.Subtract.toByte)
        | .Asterisk => .ok (p.write_byte OpCode.Multiply.toByte)
        | .Slash => .ok (p.write_byte OpCode.Divide.toByte)
        | .BangEq => .ok (p.write_bytes OpCode.Equal.toByte OpCode.Not.toByte)
        | .EqEq => .ok (p.write_byte OpCode.Equal.toByte)
        | .Greater => .ok (p.write_byte OpCode.Greater.toByte)
        | .GreaterEq => .ok (p.write_bytes OpCode.Less.toByte OpCode.Not.toByte)
        | .Less => .ok (p.write_byte OpCode.Less.toByte)
        | .LessEq => .ok (p.write_bytes OpCode.Greater.toByte OpCode.Not.toByte)
        | _ => .error .bug
    | .namedVar name ca => do
        let (arg, p) ← p.identifier_constant name
        if ca then do
          let (m, p) ← p.match_tok .Eq
          if m then do
            let p ← parseStep fuel .expr p
            .ok (p.write_bytes OpCode.SetGlobal.toByte arg)
          else .ok (p.write_bytes OpCode.GetGlobal.toByte arg)
        else .ok (p.write_bytes OpCode.GetGlobal.toByte arg)
    | .topLoop => do
        let (m, p) ← p.match_tok .EndOfFile
        if m then .ok p
        else do
          let p ← parseStep fuel .decl p
          parseStep fuel .topLoop p

/-- `Parser::parse`: reset the chunk, prime the token stream, run the
declaration loop, and finish with `end_compilation` (a `Return` byte). -/
def Parser.parse (fuel : Nat) (p : Parser) : Except PErr Chunk := do
  let p := {p with chunk := Chunk.new}
  let p ← p.advanceP
  let p ← parseStep fuel .topLoop p
  let p := p.write_byte OpCode.Return.toByte
  .ok p.chunk

/-- Lookup in the VM's global table (`HashMap::get`), modelled as an
association list. -/
def tableGet : List (String × Value) → String → Option Value
  | [], _ => none
  | (k, w) :: rest, n => if k = n then some w else tableGet rest n

/-- `HashMap::contains_key`. -/
def tableContains (l : List (String × Value)) (n : String) : Bool :=
  (tableGet l n).isSome

/-- `HashMap::insert`: overwrite an existing binding, else add one. -/
def tableInsert : List (String × Value) → String → Value → List (String × Value)
  | [], n, v => [(n, v)]
  | (k, w) :: rest, n, v =>
    if k = n then (n, v) :: rest else (k, w) :: tableInsert rest n v

/-- `vm.rs`: VM state.  The fixed `[Value; 256]` stack with its
`stack_top` index is modelled as the list of live values, head = top;
pushing past 256 entries (an out-of-bounds write in the source) and
popping an empty stack (a `usize` underflow in the source) are exposed
as distinct outcomes.  `output` logs the strings passed to the print
sink, in order. -/
structure VMState where
  chunk : Chunk
  ip : Nat
  current_instruction : Byte
  stack : List Value
  globals : List (String × Value)
  output : List String
deriving DecidableEq, Repr

/-- `VM::new` (with the CLI's always-succeeding print sink). -/
def VM.new : VMState := ⟨Chunk.new, 0, ⟨0, 0⟩, [], [], []⟩

/-- `VM::error`: format a runtime diagnostic with the line stored
alongside the currently executing instruction byte. -/
def vmError (st : VMState) (msg : String) : String :=
  fmtDiag st.current_instruction.line msg

/-- Outcome of a (partial) VM run. -/
inductive RunResult where
  | ok (st : VMState)
  | rtErr (msg : String) (st : VMState)
  | stackUnderflow (st : VMState)
  | stackOverflow (st : VMState)
  | vmCrash (st : VMState)
  | outOfFuel (st : VMState)
deriving DecidableEq, Repr

/-- Result of one fetch-decode-execute step. -/
inductive StepRes where
  | cont (st : VMState)
  | halt (r : RunResult)
deriving DecidableEq, Repr

/-- `VM::push_value`: the source writes `stack[stack_top]` unchecked, an
out-of-bounds write at 256 live values — surfaced as `stackOverflow`. -/
def pushStep (st : VMState) (v : Value) : StepRes :=
  if 256 ≤ st.stack.length then .halt (.stackOverflow st)
  else .cont {st with stack := v :: st.stack}

/-- The `binop!` macro of `VM::run` (Subtract/Multiply/Divide/
Greater/Less): peek both operands with the macro's short-circuit type
checks, pop `b` then `a`, push `mk a b`. -/
def binopStep (st : VMState) (mk : Rat → Rat → Value) : StepRes :=
  match st.stack with
  | [] => .halt (.stackUnderflow st)
  | v0 :: rest0 =>
    if !v0.is_number then .halt (.rtErr (vmError st "Operands must be numbers.") st)
    else match rest0 with
      | [] => .halt (.stackUnderflow st)
      | v1 :: rest =>
        if !v1.is_number then .halt (.rtErr (vmError st "Operands must be numbers.") st)
        else .cont {st with stack := mk v1.as_number v0.as_number :: rest}

/-- One iteration of the `VM::run` loop: fetch the opcode byte (also
recording it as `current_instruction`), decode (`OpCode::try_from`
. `unwrap`), dispatch. -/
def step (st0 : VMState) : StepRes :=
  match st0.chunk.get_byte? st0.ip with
  | none => .halt (.vmCrash st0)
  | some b =>
    let st : VMState := {st0 with ip := st0.ip + 1, current_instruction := b}
    match decodeOp b.byte with
    | none => .halt (.vmCrash st)
    | some op =>
      match op with
      | .Return => .halt (.ok st)
      | .Constant =>
        match st.chunk.get_byte? st.ip with
        | none => .halt (.vmCrash st)
        | some ob =>
          let st : VMState := {st with ip := st.ip + 1}
          match st.chunk.get_value? ob.byte with
          | none => .halt (.vmCrash st)
          | some v => pushStep st v
      | .Nil => pushStep st .nil
      | .True => pushStep st (.bool true)
      | .False => pushStep st (.bool false)
      | .Negate =>
        match st.stack with
        | [] => .halt (.stackUnderflow st)
        | v :: rest =>
          if !v.is_number then
            .halt (.rtErr (vmError st "Operand(s) must be a number.") st)
          else .cont {st with stack := .number (-(v.as_number)) :: rest}
      | .Add =>
        match st.stack with
        | [] => .halt (.stackUnderflow st)
        | v0 :: rest0 =>
          if v0.is_string then
            match rest0 with
            | [] => .halt (.stackUnderflow st)
            | v1 :: rest =>
              if v1.is_string then
                .cont {st with stack := .string (v1.as_string ++ v0.as_string) :: rest}
              else .halt (.rtErr (vmError st "Invalid operands.") st)
          else if v0.is_number then
            match rest0 with
            | [] => .halt (.stackUnderflow st)
            | v1 :: rest =>
              if v1.is_number then
                .cont {st with stack := .number (v1.as_number + v0.as_number) :: rest}
              else .halt (.rtErr (vmError st "Invalid operands.") st)
          else .halt (.rtErr (vmError st "Invalid operands.") st)
      | .Subtract => binopStep st (fun a b => .number (a - b))
      | .Multiply => binopStep st (fun a b => .number (a * b))
      | .Divide => binopStep st (fun a b => .number (a / b))
      | .Not =>
        match st.stack with
        | [] => .halt (.stackUnderflow st)
        | v :: rest => .cont {st with stack := .bool (is_falsey v) :: rest}
      | .Equal =>
        match st.stack with
        | b2 :: a2 :: rest => .cont {st with stack := .bool (decide (a2 = b2)) :: rest}
        | _ => .halt (.stackUnderflow st)
      | .Greater => binopStep st (fun a b => .bool (decide (b < a)))
      | .Less => binopStep st (fun a b => .bool (decide (a < b)))
      | .Print =>
        match st.stack with
        | [] => .halt (.stackUnderflow st)
        | v :: rest =>
          .cont {st with stack := rest, output := st.output ++ [v.to_text ++ "\n"]}
      | .Pop =>
        match st.stack with
        | [] => .halt (.stackUnderflow st)
        | _ :: rest => .cont {st with stack := rest}
      | .DefineGlobal =>
        match st.chunk.get_byte? st.ip with
        | none => .halt (.vmCrash st)
        | some ob =>
          let st : VMState := {st with ip := st.ip + 1}
          match st.chunk.get_value? ob.byte with
          | none => .halt (.vmCrash st)
          | some nv =>
            match st.stack with
            | [] => .halt (.stackUnderflow st)
            | v :: rest =>
              .cont {st with globals := tableInsert st.globals nv.to_text v,
                             stack := rest}
      | .GetGlobal =>
        match st.chunk.get_byte? st.ip with
        | none => .halt (.vmCrash st)
        | some ob =>
          let st : VMState := {st with ip := st.ip + 1}
          match st.chunk.get_value? ob.byte with
          | none => .halt (.vmCrash st)
          | some nv =>
            match tableGet st.globals nv.to_text with
            | none =>
              .halt (.rtErr (vmError st ("Undefined variable " ++ nv.to_text)) st)
            | some v => pushStep st v
      | .SetGlobal =>
        match st.chunk.get_byte? st.ip with
        | none => .halt (.vmCrash st)
        | some ob =>
          let st : VMState := {st with ip := st.ip + 1}
          match st.chunk.get_value? ob.byte with
          | none => .halt (.vmCrash st)
          | some nv =>
            if tableContains st.globals nv.to_text then
              match st.stack with
              | [] => .halt (.stackUnderflow st)
              | v :: _ =>
                .cont {st with globals := tableInsert st.globals nv.to_text v}
            else
              .halt (.rtErr (vmError st ("Undefined variable " ++ nv.to_text)) st)

/-- `VM::run`: iterate `step` until a halt (or out of fuel). -/
def run : Nat → VMState → RunResult
  | 0, st => .outOfFuel st
  | fuel+1, st =>
    match step st with
    | .halt r => r
    | .cont st' => run fuel st'

/-- `VM::interpret`: install the chunk, reset the instruction pointer
(and nothing else — in particular the global table is kept), and run. -/
def interpret (fuel : Nat) (st : VMState) (c : Chunk) : RunResult :=
  run fuel {st with chunk := c, ip := 0}

/-- Whether a run ended in a stack underflow (a pop or peek that found
the stack empty below it). -/
def RunResult.isUnderflow : RunResult → Bool
  | .stackUnderflow _ => true
  | _ => false

/-- Whether a run ended with a reported runtime error. -/
def RunResult.isRtErr : RunResult → Bool
  | .rtErr _ _ => true
  | _ => false

/-- Whether a run completed successfully (hit `Return`). -/
def RunResult.isOk : RunResult → Bool
  | .ok _ => true
  | _ => false

/-- The output log at the end of a run, whatever the outcome. -/
def RunResult.outputOf : RunResult → List String
  | .ok st => st.output
  | .rtErr _ st => st.output
  | .stackUnderflow st => st.output
  | .stackOverflow st => st.output
  | .vmCrash st => st.output
  | .outOfFuel st => st.output

/-- Static stack effect of one opcode, for the stack-depth checker:
`none` for `Return` (the halt), else `(hasOperand, need, out)` — the
instruction carries an operand byte iff `hasOperand`, requires at least
`need` values on the stack (its pops and peeks), and replaces them with
`out` values. -/
def opEffect : OpCode → Option (Bool × Nat × Nat)
  | .Return => none
  | .Constant => some (true, 0, 1)
  | .Nil => some (false, 0, 1)
  | .True => some (false, 0, 1)
  | .False => some (false, 0, 1)
  | .Negate => some (false, 1, 1)
  | .Add => some (false, 2, 1)
  | .Subtract => some (false, 2, 1)
  | .Multiply => some (false, 2, 1)
  | .Divide => some (false, 2, 1)
  | .Not => some (false, 1, 1)
  | .Equal => some (false, 2, 1)
  | .Greater => some (false, 2, 1)
  | .Less => some (false, 2, 1)
  | .Print => some (false, 1, 0)
  | .Pop => some (false, 1, 0)
  | .DefineGlobal => some (true, 1, 0)
  | .GetGlobal => some (true, 0, 1)
  | .SetGlobal => some (true, 1, 1)

/-- Static stack-depth walk of a straight-line bytecode fragment (the
instruction set has no jumps): from depth `d`, check that every
instruction finds the values it pops or peeks and has its operand byte,
and return the depth after the fragment.  `Return` must not occur inside
a fragment; running off the end is fine (fragments compose). -/
def depthWalk : List Byte → Nat → Option Nat
  | [], d => some d
  | b :: rest, d =>
    match decodeOp b.byte with
    | none => none
    | some op =>
      match opEffect op with
      | none => none
      | some (hasOp, need, out) =>
        if need ≤ d then
          if hasOp then
            match rest with
            | [] => none
            | _ :: rest2 => depthWalk rest2 (d - need + out)
          else depthWalk rest (d - need + out)
        else none

/-- Static stack-depth check of complete code: like `depthWalk`, but the
walk must REACH a `Return` opcode (running off the end of the code is a
fetch crash, not success). -/
def depthClosed : List Byte → Nat → Bool
  | [], _ => false
  | b :: rest, d =>
    match decodeOp b.byte with
    | none => false
    | some op =>
      match opEffect op with
      | none => true
      | some (hasOp, need, out) =>
        if need ≤ d then
          if hasOp then
            match rest with
            | [] => false
            | _ :: rest2 => depthClosed rest2 (d - need + out)
          else depthClosed rest (d - need + out)
        else false

/-- Lower bound on the starting depth at which a compiled fragment is
entered: the infix loop and `binary` run with the left operand already
on the stack. -/
def callLo : PCall → Nat
  | .infixStep _ _ => 1
  | .binaryRun => 1
  | _ => 0

/-- Net stack effect of the code a compiler call emits: expressions push
exactly one value, statements are balanced. -/
def callNet : PCall → Nat
  | .expr => 1
  | .parsePrec _ => 1
  | .prefixRun _ _ => 1
  | .namedVar _ _ => 1
  | _ => 0

deriving instance DecidableEq for Except

/-- Generic success test for an `Except` result. -/
def exceptIsOk : Except PErr α → Bool
  | .ok _ => true
  | .error _ => false

/-- Compile a source text, falling back to the empty chunk on failure
(used only on sources whose compilation is proved to succeed). -/
def parseChunk (src : String) (fuel : Nat) : Chunk :=
  match Parser.parse fuel (Parser.new src) with
  | .ok c => c
  | .error _ => Chunk.new

/-- Compile and, on success, run a program on a fresh VM. -/
def runProgram (src : String) (pf vf : Nat) : Option RunResult :=
  match Parser.parse pf (Parser.new src) with
  | .ok c => some (run vf {VM.new with chunk := c})
  | .error _ => none

/-- First interpretation for the global-persistence scenario:
`var x = 1;` on a fresh VM. -/
def c2first : RunResult :=
  match Parser.parse 50 (Parser.new "var x = 1;") with
  | .ok c => interpret 50 VM.new c
  | .error _ => .outOfFuel VM.new

/-- Second interpretation on the SAME VM instance: `print x;` where `x`
was bound only by the previous `interpret` call. -/
def c2second : RunResult :=
  match c2first with
  | .ok st1 =>
    match Parser.parse 50 (Parser.new "print x;") with
    | .ok c2 => interpret 50 st1 c2
    | .error _ => .outOfFuel VM.new
  | r => r

/-- A chunk that reads the global `name` and prints it:
`GetGlobal name; Print; Return` (lines 0). -/
def getPrintChunk (name : String) : Chunk :=
  ⟨[⟨OpCode.GetGlobal.toByte, 0⟩, ⟨0, 0⟩, ⟨OpCode.Print.toByte, 0⟩,
    ⟨OpCode.Return.toByte, 0⟩], [.string name]⟩

/-- The ten infix (binary) operator token kinds of the parse-rule
table. -/
def isBinaryOp : TokenType → Bool
  | .Plus | .Minus | .Asterisk | .Slash => true
  | .BangEq | .EqEq | .Greater | .GreaterEq | .Less | .LessEq => true
  | _ => false

/-- The opcode bytes the claim says `binary` emits for each operator:
`+`→Add, `-`→Subtract, `*`→Multiply, `/`→Divide, `==`→Equal,
`!=`→Equal,Not, `<`→Less, `<=`→Greater,Not, `>`→Greater,
`>=`→Less,Not. -/
def binOpBytes : TokenType → List Nat
  | .Plus => [OpCode.Add.toByte]
  | .Minus => [OpCode.Subtract.toByte]
  | .Asterisk => [OpCode.Multiply.toByte]
  | .Slash => [OpCode.Divide.toByte]
  | .EqEq => [OpCode.Equal.toByte]
  | .BangEq => [OpCode.Equal.toByte, OpCode.Not.toByte]
  | .Less => [OpCode.Less.toByte]
  | .LessEq => [OpCode.Greater.toByte, OpCode.Not.toByte]
  | .Greater => [OpCode.Greater.toByte]
  | .GreaterEq => [OpCode.Less.toByte, OpCode.Not.toByte]
  | _ => []

/-- Append a list of opcode bytes to the chunk, each tagged with the
previous token's line (the effect of a run of `write_byte`s). -/
def Parser.appendOps (p : Parser) (bs : List Nat) : Parser :=
  {p with chunk := {p.chunk with
                     code := p.chunk.code ++ bs.map (fun b => ⟨b, p.previous.line⟩)}}

/-- A parser state in the middle of compiling `1+2;`, just after the
infix loop consumed the `+`: `previous` is the `+` token, `current` the
`2`, and the chunk already holds the left operand's bytecode. -/
def c5parser : Parser :=
  ⟨⟨3, 2, 1, "1+2;".toList⟩, ⟨[⟨1, 1⟩, ⟨0, 1⟩], [.number 1]⟩,
   ⟨.Number, "2", 1⟩, ⟨.Plus, "", 1⟩⟩

/-- The common compilation of `1-2-3;` and `(1-2)-3;`:
`Constant 0; Constant 1; Subtract; Constant 2; Subtract; Pop; Return`
with constant pool `[1, 2, 3]`. -/
def c5chunkLit : Chunk :=
  ⟨[⟨1, 1⟩, ⟨0, 1⟩, ⟨1, 1⟩, ⟨1, 1⟩, ⟨7, 1⟩, ⟨1, 1⟩, ⟨2, 1⟩, ⟨7, 1⟩,
    ⟨15, 1⟩, ⟨0, 1⟩],
   [.number 1, .number 2, .number 3]⟩

/-- A parser state whose chunk already holds 256 constants (the most a
chunk can address), about to intern one more. -/
def c1parser : Parser :=
  ⟨Tokenizer.new "", ⟨[], List.replicate 256 Value.nil⟩,
   Token.new_no_text .EndOfFile 0, Token.new_no_text .EndOfFile 0⟩

/-- A string is a well-formed diagnostic: `"[line <N>] Error: <msg>"`. -/
def IsDiag (e : String) : Prop :=
  ∃ n m, e = fmtDiag n m

/-- A compilation failure value whose `diag` payload (if any) is a
well-formed diagnostic. -/
def DiagOK (pe : PErr) : Prop :=
  ∀ e, pe = .diag e → IsDiag e

/-- The code a successful compiler call appends is a stack-safe fragment
with the call's net effect, from any depth at or above the call's entry
bound. -/
def EmitsOK (c : PCall) (p p' : Parser) : Prop :=
  ∃ Δ, p'.chunk.code = p.chunk.code ++ Δ ∧
    ∀ d, depthWalk Δ (d + callLo c) = some (d + callLo c + callNet c)

theorem tableGet_insert (l : List (String × Value)) (n : String) (v : Value) :
    tableGet (tableInsert l n v) n = some v := by
  induction l with
  | nil => simp [tableInsert, tableGet]
  | cons kv rest ih =>
    obtain ⟨k, w⟩ := kv
    by_cases h : k = n
    · simp [tableInsert, h, tableGet]
    · simp [tableInsert, h, tableGet, ih]

/-- C6: executing `Not` pops the value, pushes the boolean that is true
exactly when the value is falsey (`nil` and `false` only — number `0`
and the empty string are truthy), and never raises a runtime error. -/
theorem c6_not_falsiness (st : VMState) (b : Byte) (v : Value) (rest : List Value)
    (hb : st.chunk.get_byte? st.ip = some b)
    (hop : b.byte = OpCode.Not.toByte)
    (hs : st.stack = v :: rest) :
    step st = .cont {st with
                      ip := st.ip + 1,
                      current_instruction := b,
                      stack := .bool (is_falsey v) :: rest} ∧
    (is_falsey v = true ↔ (v = .nil ∨ v = .bool false)) := by
  constructor
  · have hdec : decodeOp b.byte = some .Not := by rw [hop]; rfl
    unfold step
    rw [hb]
    simp [hdec, hs]
  · cases v with
    | bool bb => cases bb <;> simp [is_falsey, Value.is_nil, Value.is_bool, Value.as_bool]
    | number q => simp [is_falsey, Value.is_nil, Value.is_bool]
    | string s => simp [is_falsey, Value.is_nil, Value.is_bool]
    | nil => simp [is_falsey, Value.is_nil]

/-- Witness for `c6_not_falsiness`: an explicit `Not` execution on the
number `0` (which is truthy, so `Not` pushes `false`). -/
theorem c6_not_falsiness_witness :
    step ⟨⟨[⟨10, 1⟩], []⟩, 0, ⟨0, 0⟩, [.number 0], [], []⟩ =
      .cont ⟨⟨[⟨10, 1⟩], []⟩, 1, ⟨10, 1⟩, [.bool false], [], []⟩ ∧
    (is_falsey (.number 0) = true ↔
      ((.number 0 : Value) = .nil ∨ (.number 0 : Value) = .bool false)) :=
  c6_not_falsiness ⟨⟨[⟨10, 1⟩], []⟩, 0, ⟨0, 0⟩, [.number 0], [], []⟩
    ⟨10, 1⟩ (.number 0) [] (by decide) (by decide) (by decide)

/-- C3: executing `Add` — two strings concatenate in `a + b` order
(second-from-top first), two numbers sum, and every other combination
halts with the runtime error "Invalid operands." (no numeric-to-string
coercion). -/
theorem c3_add_semantics (st : VMState) (b : Byte)
    (hb : st.chunk.get_byte? st.ip = some b)
    (hop : b.byte = OpCode.Add.toByte) :
    (∀ s0 s1 rest, st.stack = .string s0 :: .string s1 :: rest →
       step st = .cont {st with
                         ip := st.ip + 1,
                         current_instruction := b,
                         stack := .string (s1 ++ s0) :: rest}) ∧
    (∀ q0 q1 rest, st.stack = .number q0 :: .number q1 :: rest →
       step st = .cont {st with
                         ip := st.ip + 1,
                         current_instruction := b,
                         stack := .number (q1 + q0) :: rest}) ∧
    (∀ v0 v1 rest, st.stack = v0 :: v1 :: rest →
       ¬(v0.is_string = true ∧ v1.is_string = true) →
       ¬(v0.is_number = true ∧ v1.is_number = true) →
       step st = .halt (.rtErr (fmtDiag b.line "Invalid operands.")
                        {st with
                          ip := st.ip + 1,
                          current_instruction := b})) := by
  have hdec : decodeOp b.byte = some .Add := by rw [hop]; rfl
  refine ⟨?_, ?_, ?_⟩
  · intro s0 s1 rest hs
    unfold step
    rw [hb]
    simp [hdec, hs, Value.is_string, Value.as_string]
  · intro q0 q1 rest hs
    unfold step
    rw [hb]
    simp [hdec, hs, Value.is_string, Value.is_number, Value.as_number]
  · intro v0 v1 rest hs hns hnn
    unfold step
    rw [hb]
    cases v0 <;> cases v1 <;>
      simp_all [Value.is_string, Value.is_number, vmError, fmtDiag]

/-- Witness for `c3_add_semantics`: an explicit `Add` on the stack
`[top = "b", "a"]` producing `"ab"`. -/
theorem c3_add_semantics_witness :
    step ⟨⟨[⟨6, 1⟩], []⟩, 0, ⟨0, 0⟩, [.string "b", .string "a"], [], []⟩ =
      .cont ⟨⟨[⟨6, 1⟩], []⟩, 1, ⟨6, 1⟩, [.string "ab"], [], []⟩ :=
  (c3_add_semantics ⟨⟨[⟨6, 1⟩], []⟩, 0, ⟨0, 0⟩, [.string "b", .string "a"], [], []⟩
    ⟨6, 1⟩ (by decide) (by decide)).1 "b" "a" [] (by decide)

/-- C4: executing `SetGlobal` — if the name is absent the VM halts with
the undefined-variable error and the table is unchanged; otherwise the
binding is overwritten with the current stack top WITHOUT popping, so an
assignment expression yields its assigned value
(`var x = 1; print x = 5;` prints `5`). -/
theorem c4_set_global_semantics (st : VMState) (b ob : Byte) (nv : Value)
    (hb : st.chunk.get_byte? st.ip = some b)
    (hop : b.byte = OpCode.SetGlobal.toByte)
    (hob : st.chunk.get_byte? (st.ip + 1) = some ob)
    (hnv : st.chunk.get_value? ob.byte = some nv) :
    (tableContains st.globals nv.to_text = false →
       step st = .halt (.rtErr
         (fmtDiag b.line ("Undefined variable " ++ nv.to_text))
         {st with
           ip := st.ip + 2,
           current_instruction := b})) ∧
    (∀ v rest, st.stack = v :: rest →
       tableContains st.globals nv.to_text = true →
       step st = .cont {st with
                         ip := st.ip + 2,
                         current_instruction := b,
                         globals := tableInsert st.globals nv.to_text v}) ∧
    (runProgram "var x = 1; print x = 5;" 100 100).map RunResult.outputOf
      = some ["5\n"] := by
  have hdec : decodeOp b.byte = some .SetGlobal := by rw [hop]; rfl
  refine ⟨?_, ?_, by decide⟩
  · intro habs
    unfold step
    rw [hb]
    simp [hdec, hob, hnv, habs, vmError, fmtDiag]
  · intro v rest hs hpres
    unfold step
    rw [hb]
    simp [hdec, hob, hnv, hpres, hs]

/-- Witness for `c4_set_global_semantics`: explicit `SetGlobal x` with
`x` bound, overwriting the binding while leaving the stack intact. -/
theorem c4_set_global_semantics_witness :
    step ⟨⟨[⟨18, 1⟩, ⟨0, 1⟩], [.string "x"]⟩, 0, ⟨0, 0⟩, [.number 5],
          [("x", .number 1)], []⟩ =
      .cont ⟨⟨[⟨18, 1⟩, ⟨0, 1⟩], [.string "x"]⟩, 2, ⟨18, 1⟩, [.number 5],
             [("x", .number 5)], []⟩ :=
  (c4_set_global_semantics
    ⟨⟨[⟨18, 1⟩, ⟨0, 1⟩], [.string "x"]⟩, 0, ⟨0, 0⟩, [.number 5],
     [("x", .number 1)], []⟩
    ⟨18, 1⟩ ⟨0, 1⟩ (.string "x")
    (by decide) (by decide) (by decide) (by decide)).2.1
    (.number 5) [] (by decide) (by decide)

/-- C10: re-declaring a global is never an error — `DefineGlobal`
unconditionally (re)binds the name to the stack top and pops, the new
binding wins, and the compiler accepts duplicate `var` declarations both
at top level and inside a block. -/
theorem c10_redeclaration_allowed (st : VMState) (b ob : Byte) (nv v : Value)
    (rest : List Value)
    (hb : st.chunk.get_byte? st.ip = some b)
    (hop : b.byte = OpCode.DefineGlobal.toByte)
    (hob : st.chunk.get_byte? (st.ip + 1) = some ob)
    (hnv : st.chunk.get_value? ob.byte = some nv)
    (hs : st.stack = v :: rest) :
    step st = .cont {st with
                      ip := st.ip + 2,
                      current_instruction := b,
                      globals := tableInsert st.globals nv.to_text v,
                      stack := rest} ∧
    tableGet (tableInsert st.globals nv.to_text v) nv.to_text = some v ∧
    exceptIsOk (Parser.parse 100 (Parser.new "var x = 1; var x = 2; print x;")) = true ∧
    exceptIsOk (Parser.parse 100 (Parser.new "{ var x = 1; var x = 2; }")) = true ∧
    (runProgram "var x = 1; var x = 2; print x;" 100 100).map RunResult.outputOf
      = some ["2\n"] := by
  have hdec : decodeOp b.byte = some .DefineGlobal := by rw [hop]; rfl
  refine ⟨?_, tableGet_insert _ _ _, by decide, by decide, by decide⟩
  unfold step
  rw [hb]
  simp [hdec, hob, hnv, hs]

/-- Witness for `c10_redeclaration_allowed`: explicit `DefineGlobal x`
with `x` already bound, rebinding it to the new value. -/
theorem c10_redeclaration_allowed_witness :
    step ⟨⟨[⟨16, 1⟩, ⟨0, 1⟩], [.string "x"]⟩, 0, ⟨0, 0⟩, [.number 2],
          [("x", .number 1)], []⟩ =
      .cont ⟨⟨[⟨16, 1⟩, ⟨0, 1⟩], [.string "x"]⟩, 2, ⟨16, 1⟩, [],
             [("x", .number 2)], []⟩ ∧
    tableGet (tableInsert [("x", .number 1)] "x" (.number 2)) "x"
      = some (.number 2) ∧
    exceptIsOk (Parser.parse 100 (Parser.new "var x = 1; var x = 2; print x;")) = true ∧
    exceptIsOk (Parser.parse 100 (Parser.new "{ var x = 1; var x = 2; }")) = true ∧
    (runProgram "var x = 1; var x = 2; print x;" 100 100).map RunResult.outputOf
      = some ["2\n"] :=
  c10_redeclaration_allowed
    ⟨⟨[⟨16, 1⟩, ⟨0, 1⟩], [.string "x"]⟩, 0, ⟨0, 0⟩, [.number 2],
     [("x", .number 1)], []⟩
    ⟨16, 1⟩ ⟨0, 1⟩ (.string "x") (.number 2) []
    (by decide) (by decide) (by decide) (by decide) (by decide)

/-- C1: the "Too many constants in one chunk." compile error is
unreachable — `make_constant` succeeds on EVERY input, because
`write_value` truncates the index to `u8` BEFORE the `> u8::MAX` check —
so a compilation never fails for having too many constants; instead, a
parser state that has already interned 256 constants interns the 257th
with operand byte 0 (wrapped around, not the constant's true index 256)
and a 257-entry pool, concretely so for `c1parser`. -/
theorem c1_too_many_constants_unreachable :
    (∀ (p : Parser) (v : Value), exceptIsOk (p.make_constant v) = true) ∧
    (∀ (p : Parser) (v : Value), p.chunk.value_array.length = 256 →
       ∃ p', p.make_constant v = .ok (0, p') ∧
         p'.chunk.value_array.length = 257) ∧
    (c1parser.make_constant (.number 0) =
       .ok (0, {c1parser with
                 chunk := ⟨[], List.replicate 256 Value.nil ++ [.number 0]⟩})) := by
  refine ⟨?_, ?_, by decide⟩
  · intro p v
    have h : ¬ 255 < u8subOne (u8cast (p.chunk.value_array.length + 1)) := by
      unfold u8subOne u8cast
      omega
    simp [Parser.make_constant, Chunk.write_value, exceptIsOk, h]
  · intro p v hlen
    have hidx : u8subOne (u8cast (p.chunk.value_array.length + 1)) = 0 := by
      rw [hlen]
      decide
    refine ⟨{p with chunk := ⟨p.chunk.code, p.chunk.value_array ++ [v]⟩}, ?_, ?_⟩
    · simp [Parser.make_constant, Chunk.write_value, hidx]
    · simp [hlen]

theorem peek_at_end (t : Tokenizer) (h : t.is_at_end = true) :
    t.peek = Char.ofNat 0 := by
  simp only [Tokenizer.is_at_end, decide_eq_true_eq] at h
  unfold Tokenizer.peek Tokenizer.get_char
  exact List.getD_eq_default _ _ h

theorem skipWs_at_end (t : Tokenizer) (h : t.is_at_end = true) :
    skipWs t.scanFuel t = t := by
  have hpeek := peek_at_end t h
  have e : t.scanFuel = t.source.length + 1 + 1 := rfl
  rw [e, skipWs]
  simp only [hpeek]
  rw [if_neg (by decide), if_neg (by decide),
      if_neg (fun hc => absurd hc.1 (by decide))]

theorem scan_token_at_end (t : Tokenizer) (h : t.is_at_end = true) :
    t.scan_token = (Token.new_no_text .EndOfFile t.line,
                    {t with start := t.current}) := by
  unfold Tokenizer.scan_token
  rw [skipWs_at_end t h]
  have h2 : ({t with start := t.current} : Tokenizer).is_at_end = true := by
    simpa [Tokenizer.is_at_end] using h
  rw [if_pos h2]
  rfl

/-- C7: once the source is exhausted, every further `scan_token` call
returns an `EndOfFile` token and leaves the tokenizer in the same fixed
state (idempotent terminal state). -/
theorem c7_eof_idempotent (t : Tokenizer) (h : t.is_at_end = true) :
    ∀ n, (scanStream t n).1 = Token.new_no_text .EndOfFile t.line ∧
         (scanStream t n).2 = {t with start := t.current} := by
  intro n
  induction n with
  | zero =>
    have hs := scan_token_at_end t h
    exact ⟨by rw [scanStream, hs], by rw [scanStream, hs]⟩
  | succ n ih =>
    obtain ⟨ih1, ih2⟩ := ih
    have hend2 : ({t with start := t.current} : Tokenizer).is_at_end = true := by
      simpa [Tokenizer.is_at_end] using h
    have h2 := scan_token_at_end _ hend2
    exact ⟨by rw [scanStream, ih2, h2], by rw [scanStream, ih2, h2]⟩

/-- Witness for `c7_eof_idempotent`: the empty source is at end from the
start, and scanning yields `EndOfFile` with the state unchanged. -/
theorem c7_eof_idempotent_witness :
    (scanStream (Tokenizer.new "") 0).1 = Token.new_no_text .EndOfFile 1 ∧
    (scanStream (Tokenizer.new "") 0).2 = Tokenizer.new "" :=
  c7_eof_idempotent (Tokenizer.new "") (by decide) 0

/-- C2 counterexample: on the same VM instance, interpreting
`var x = 1;` and then interpreting `print x;` does NOT raise the
undefined-variable error the claim requires — the second run succeeds
and prints the global bound by the first run. -/
theorem c2_globals_persist_counterexample :
    c2second.isOk = true ∧ c2second.isRtErr = false ∧
    c2second.outputOf = ["1\n"] := by
  refine ⟨by decide, by decide, by decide⟩

/-- C2 (amended): `interpret` resets only the chunk and the instruction
pointer, so the global table persists across `interpret` calls on the
same VM instance: any global visible in the state reached by earlier
calls is still readable by a later call (here: a later run of
`GetGlobal name; Print; Return` prints its value), and concretely
`var x = 1;` then `print x;` on one VM prints `1`. -/
theorem c2_globals_persist (st : VMState) (name : String) (v : Value)
    (hstack : st.stack = [])
    (hget : tableGet st.globals name = some v) :
    interpret 5 st (getPrintChunk name) =
      .ok {st with
            chunk := getPrintChunk name,
            ip := 4,
            current_instruction := ⟨0, 0⟩,
            output := st.output ++ [v.to_text ++ "\n"]} ∧
    c2second.outputOf = ["1\n"] := by
  constructor
  · unfold interpret
    simp [run, step, getPrintChunk, Chunk.get_byte?, Chunk.get_value?,
          decodeOp, pushStep, hget, hstack, Value.to_text, OpCode.toByte]
  · decide

/-- Witness for `c2_globals_persist`: a VM whose table binds `x` (as the
state after a previous `interpret` of `var x = 1;` does) serves `x` to a
later interpretation. -/
theorem c2_globals_persist_witness :
    interpret 5 {VM.new with globals := [("x", .number 1)]} (getPrintChunk "x") =
      .ok {VM.new with
            chunk := getPrintChunk "x",
            ip := 4,
            current_instruction := ⟨0, 0⟩,
            globals := [("x", .number 1)],
            output := [(Value.number 1).to_text ++ "\n"]} ∧
    c2second.outputOf = ["1\n"] :=
  c2_globals_persist {VM.new with globals := [("x", .number 1)]} "x"
    (.number 1) (by decide) (by decide)

theorem bind_ok_map (x : Except PErr Parser) (k : Parser → Parser) :
    (x >>= fun q => Except.ok (k q)) = x.map k := by
  cases x <;> rfl

theorem write_byte_appendOps (p : Parser) (b : Nat) :
    p.write_byte b = p.appendOps [b] := by
  simp [Parser.write_byte, Parser.appendOps, Chunk.write_byte]

theorem write_bytes_appendOps (p : Parser) (b1 b2 : Nat) :
    p.write_bytes b1 b2 = p.appendOps [b1, b2] := by
  simp [Parser.write_bytes, Parser.write_byte, Parser.appendOps, Chunk.write_byte]

/-- C5: for every binary operator, `binary` parses the right operand at
one precedence level above the operator's own and then emits exactly the
claimed opcode bytes (`!=`, `<=`, `>=` via relational negation, no
dedicated opcodes); consequently operators are left-associative —
`1-2-3;` and `(1-2)-3;` compile to the same chunk (`c5chunkLit`). -/
theorem c5_binary_operators :
    (∀ fuel (p : Parser) (op : TokenType), p.previous.ty = op →
       isBinaryOp op = true →
       parseStep (fuel + 1) .binaryRun p =
         (parseStep fuel (.parsePrec ((get_parse_rule op).prec + 1)) p).map
           (fun p' => p'.appendOps (binOpBytes op))) ∧
    (parseChunk "1-2-3;" 100 = c5chunkLit ∧
     parseChunk "(1-2)-3;" 100 = c5chunkLit) := by
  refine ⟨?_, by decide, by decide⟩
  intro fuel p op hprev hbin
  simp only [parseStep]
  rw [hprev]
  cases op <;> simp_all [isBinaryOp, binOpBytes, bind_ok_map,
    write_byte_appendOps, write_bytes_appendOps]

/-- Witness for `c5_binary_operators`: the characterization applied to
the `+` of `1+2;` mid-parse. -/
theorem c5_binary_operators_witness :
    parseStep (4 + 1) .binaryRun c5parser =
      (parseStep 4 (.parsePrec ((get_parse_rule .Plus).prec + 1)) c5parser).map
        (fun p' => p'.appendOps (binOpBytes .Plus)) :=
  c5_binary_operators.1 4 c5parser .Plus (by decide) (by decide)

theorem bind_eq_error {α β : Type} (x : Except PErr α) (f : α → Except PErr β)
    (pe : PErr) (h : x >>= f = .error pe) :
    x = .error pe ∨ ∃ a, x = .ok a ∧ f a = .error pe := by
  cases x with
  | error e =>
    left
    have h2 : (Except.error e : Except PErr β) = .error pe := h
    injection h2 with h3
    rw [h3]
  | ok a =>
    right
    exact ⟨a, rfl, h⟩

theorem bind_diagOK {α β : Type} (x : Except PErr α) (f : α → Except PErr β)
    (pe : PErr)
    (hx : ∀ pe', x = .error pe' → DiagOK pe')
    (hf : ∀ a pe', f a = .error pe' → DiagOK pe')
    (h : x >>= f = .error pe) : DiagOK pe := by
  rcases bind_eq_error x f pe h with h | ⟨a, ha, h⟩
  · exact hx _ h
  · exact hf _ _ h

theorem error_at_diagOK (tok : Token) (msg : String) : DiagOK (error_at tok msg) := by
  intro e he
  unfold error_at at he
  injection he with h
  exact ⟨tok.line, msg, h.symm⟩

theorem bug_diagOK : DiagOK .bug := by
  intro e he
  cases he

theorem noFuel_diagOK : DiagOK .noFuel := by
  intro e he
  cases he

theorem advanceP_err (p : Parser) (pe : PErr) (h : p.advanceP = .error pe) :
    DiagOK pe := by
  simp only [Parser.advanceP] at h
  split at h
  · injection h with h'
    rw [← h']
    exact error_at_diagOK _ _
  · cases h

theorem match_tok_err (p : Parser) (ty : TokenType) (pe : PErr)
    (h : p.match_tok ty = .error pe) : DiagOK pe := by
  unfold Parser.match_tok at h
  split at h
  · rcases bind_eq_error _ _ _ h with h | ⟨a, _, h⟩
    · exact advanceP_err _ _ h
    · cases h
  · cases h

theorem consume_err (p : Parser) (ty : TokenType) (msg : String) (pe : PErr)
    (h : p.consume ty msg = .error pe) : DiagOK pe := by
  unfold Parser.consume at h
  split at h
  · exact advanceP_err _ _ h
  · injection h with h'
    rw [← h']
    exact error_at_diagOK _ _

theorem make_constant_err (p : Parser) (v : Value) (pe : PErr)
    (h : p.make_constant v = .error pe) : DiagOK pe := by
  simp only [Parser.make_constant] at h
  split at h
  · injection h with h'
    rw [← h']
    exact error_at_diagOK _ _
  · cases h

theorem identifier_constant_err (p : Parser) (tok : Token) (pe : PErr)
    (h : p.identifier_constant tok = .error pe) : DiagOK pe :=
  make_constant_err _ _ _ h

theorem parse_variable_err (p : Parser) (msg : String) (pe : PErr)
    (h : p.parse_variable msg = .error pe) : DiagOK pe := by
  unfold Parser.parse_variable at h
  exact bind_diagOK _ _ _ (fun pe' h' => consume_err _ _ _ _ h')
    (fun a pe' h' => identifier_constant_err _ _ _ h') h

theorem write_constant_err (p : Parser) (v : Value) (pe : PErr)
    (h : p.write_constant v = .error pe) : DiagOK pe := by
  unfold Parser.write_constant at h
  refine bind_diagOK _ _ _ (fun pe' h' => make_constant_err _ _ _ h') ?_ h
  intro a pe' h'
  cases h'

theorem numberFn_err (p : Parser) (pe : PErr) (h : p.numberFn = .error pe) :
    DiagOK pe := by
  unfold Parser.numberFn at h
  split at h
  · exact write_constant_err _ _ _ h
  · injection h with h'
    rw [← h']
    exact bug_diagOK

theorem literalFn_err (p : Parser) (pe : PErr) (h : p.literalFn = .error pe) :
    DiagOK pe := by
  unfold Parser.literalFn at h
  split at h
  · cases h
  · cases h
  · cases h
  · injection h with h'
    rw [← h']
    exact bug_diagOK

theorem stringFn_err (p : Parser) (pe : PErr) (h : p.stringFn = .error pe) :
    DiagOK pe := by
  unfold Parser.stringFn at h
  split at h
  · exact write_constant_err _ _ _ h
  · injection h with h'
    rw [← h']
    exact bug_diagOK

theorem parseStep_err : ∀ fuel c p pe, parseStep fuel c p = .error pe → DiagOK pe := by
  intro fuel
  induction fuel with
  | zero =>
    intro c p pe h
    rw [parseStep] at h
    injection h with h'
    rw [← h']
    exact noFuel_diagOK
  | succ f ih =>
    intro c p pe h
    cases c with
    | decl =>
      simp only [parseStep] at h
      refine bind_diagOK _ _ _ (fun pe' h' => match_tok_err _ _ _ h') ?_ h
      intro a pe' h'
      obtain ⟨m, p1⟩ := a
      cases m
      · exact ih _ _ _ h'
      · exact ih _ _ _ h'
    | varDecl =>
      simp only [parseStep] at h
      refine bind_diagOK _ _ _ (fun pe' h' => parse_variable_err _ _ _ h') ?_ h
      intro a pe' h'
      obtain ⟨g, p1⟩ := a
      refine bind_diagOK _ _ _ (fun pe2 h2 => match_tok_err _ _ _ h2) ?_ h'
      intro a2 pe2 h2
      obtain ⟨m, p2⟩ := a2
      split at h2
      · refine bind_diagOK _ _ _ (fun pe3 h3 => ih _ _ _ h3) ?_ h2
        intro p3 pe3 h3
        refine bind_diagOK _ _ _ (fun pe4 h4 => consume_err _ _ _ _ h4) ?_ h3
        intro p4 pe4 h4
        exact Except.noConfusion h4
      · rcases bind_eq_error _ _ _ h2 with h3 | ⟨a3, _, h3⟩
        · exact Except.noConfusion h3
        · refine bind_diagOK _ _ _ (fun pe4 h4 => consume_err _ _ _ _ h4) ?_ h3
          intro p4 pe4 h4
          exact Except.noConfusion h4
    | stmt =>
      simp only [parseStep] at h
      refine bind_diagOK _ _ _ (fun pe' h' => match_tok_err _ _ _ h') ?_ h
      intro a pe' h'
      obtain ⟨m, p1⟩ := a
      cases m
      · refine bind_diagOK _ _ _ (fun pe2 h2 => match_tok_err _ _ _ h2) ?_ h'
        intro a2 pe2 h2
        obtain ⟨m2, p2⟩ := a2
        cases m2
        · exact ih _ _ _ h2
        · refine bind_diagOK _ _ _ (fun pe3 h3 => ih _ _ _ h3) ?_ h2
          intro p3 pe3 h3
          exact consume_err _ _ _ _ h3
      · exact ih _ _ _ h'
    | blockLoop =>
      simp only [parseStep] at h
      split at h
      · refine bind_diagOK _ _ _ (fun pe' h' => ih _ _ _ h') ?_ h
        intro p1 pe' h'
        exact ih _ _ _ h'
      · exact Except.noConfusion h
    | exprStmt =>
      simp only [parseStep] at h
      refine bind_diagOK _ _ _ (fun pe' h' => ih _ _ _ h') ?_ h
      intro p1 pe' h'
      refine bind_diagOK _ _ _ (fun pe2 h2 => consume_err _ _ _ _ h2) ?_ h'
      intro p2 pe2 h2
      exact Except.noConfusion h2
    | printStmt =>
      simp only [parseStep] at h
      refine bind_diagOK _ _ _ (fun pe' h' => ih _ _ _ h') ?_ h
      intro p1 pe' h'
      refine bind_diagOK _ _ _ (fun pe2 h2 => consume_err _ _ _ _ h2) ?_ h'
      intro p2 pe2 h2
      exact Except.noConfusion h2
    | expr =>
      simp only [parseStep] at h
      exact ih _ _ _ h
    | parsePrec prec =>
      simp only [parseStep] at h
      refine bind_diagOK _ _ _ (fun pe' h' => advanceP_err _ _ h') ?_ h
      intro p1 pe' h'
      split at h'
      · injection h' with h2
        rw [← h2]
        exact error_at_diagOK _ _
      · refine bind_diagOK _ _ _ (fun pe2 h2 => ih _ _ _ h2) ?_ h'
        intro p2 pe2 h2
        exact ih _ _ _ h2
    | infixStep prec ca =>
      simp only [parseStep] at h
      split at h
      · refine bind_diagOK _ _ _ (fun pe' h' => advanceP_err _ _ h') ?_ h
        intro p1 pe' h'
        split at h'
        · refine bind_diagOK _ _ _ (fun pe2 h2 => ih _ _ _ h2) ?_ h'
          intro p2 pe2 h2
          exact ih _ _ _ h2
        · injection h' with h2
          rw [← h2]
          exact bug_diagOK
      · exact Except.noConfusion h
    | prefixRun pf ca =>
      cases pf with
      | grouping =>
        simp only [parseStep] at h
        refine bind_diagOK _ _ _ (fun pe' h' => ih _ _ _ h') ?_ h
        intro p1 pe' h'
        exact consume_err _ _ _ _ h'
      | unaryFn =>
        simp only [parseStep] at h
        refine bind_diagOK _ _ _ (fun pe' h' => ih _ _ _ h') ?_ h
        intro p1 pe' h'
        split at h'
        · exact Except.noConfusion h'
        · exact Except.noConfusion h'
        · injection h' with h2
          rw [← h2]
          exact bug_diagOK
      | numberFn =>
        simp only [parseStep] at h
        exact numberFn_err _ _ h
      | literalFn =>
        simp only [parseStep] at h
        exact literalFn_err _ _ h
      | stringFn =>
        simp only [parseStep] at h
        exact stringFn_err _ _ h
      | variableFn =>
        simp only [parseStep] at h
        exact ih _ _ _ h
    | binaryRun =>
      simp only [parseStep] at h
      refine bind_diagOK _ _ _ (fun pe' h' => ih _ _ _ h') ?_ h
      intro p1 pe' h'
      split at h' <;> first
        | exact Except.noConfusion h'
        | (injection h' with h2; rw [← h2]; exact bug_diagOK)
    | namedVar name ca =>
      simp only [parseStep] at h
      refine bind_diagOK _ _ _ (fun pe' h' => identifier_constant_err _ _ _ h') ?_ h
      intro a pe' h'
      obtain ⟨arg, p1⟩ := a
      cases ca
      · exact Except.noConfusion h'
      · refine bind_diagOK _ _ _ (fun pe2 h2 => match_tok_err _ _ _ h2) ?_ h'
        intro a2 pe2 h2
        obtain ⟨m, p2⟩ := a2
        cases m
        · exact Except.noConfusion h2
        · refine bind_diagOK _ _ _ (fun pe3 h3 => ih _ _ _ h3) ?_ h2
          intro p3 pe3 h3
          exact Except.noConfusion h3
    | topLoop =>
      simp only [parseStep] at h
      refine bind_diagOK _ _ _ (fun pe' h' => match_tok_err _ _ _ h') ?_ h
      intro a pe' h'
      obtain ⟨m, p1⟩ := a
      cases m
      · refine bind_diagOK _ _ _ (fun pe2 h2 => ih _ _ _ h2) ?_ h'
        intro p2 pe2 h2
        exact ih _ _ _ h2
      · exact Except.noConfusion h'

theorem step_rtErr (st : VMState) (msg : String) (stE : VMState)
    (h : step st = .halt (.rtErr msg stE)) :
    ∃ m, msg = fmtDiag stE.current_instruction.line m := by
  unfold step binopStep pushStep at h
  repeat' (first | split at h | simp only [] at h)
  all_goals (first | (cases h; exact ⟨_, rfl⟩) | cases h)

theorem run_rtErr : ∀ fuel st msg stE, run fuel st = .rtErr msg stE →
    ∃ m, msg = fmtDiag stE.current_instruction.line m := by
  intro fuel
  induction fuel with
  | zero =>
    intro st msg stE h
    rw [run] at h
    cases h
  | succ f ih =>
    intro st msg stE h
    rw [run] at h
    cases hs : step st with
    | halt r =>
      rw [hs] at h
      cases h
      exact step_rtErr st msg stE hs
    | cont st' =>
      rw [hs] at h
      exact ih st' msg stE h

theorem parse_diag (fuel : Nat) (p : Parser) (e : String)
    (h : Parser.parse fuel p = .error (.diag e)) : IsDiag e := by
  unfold Parser.parse at h
  rcases bind_eq_error _ _ _ h with h' | ⟨p1, _, h'⟩
  · exact advanceP_err _ _ h' e rfl
  · rcases bind_eq_error _ _ _ h' with h2 | ⟨p2, _, h2⟩
    · exact parseStep_err _ _ _ _ h2 e rfl
    · exact Except.noConfusion h2

/-- C8: every reported diagnostic is `"[line <N>] Error: <message>"`:
`error_at` and `VM::error` produce exactly that string, every
compile-time error returned by `parse` has this shape (with `N` a token
line), and every runtime error returned by `run` carries the line
recorded alongside the opcode byte being executed when it halted. -/
theorem c8_diagnostic_format :
    (∀ tok msg, error_at tok msg = .diag (fmtDiag tok.line msg)) ∧
    (∀ st msg, vmError st msg = fmtDiag st.current_instruction.line msg) ∧
    (∀ fuel p e, Parser.parse fuel p = .error (.diag e) → ∃ n m, e = fmtDiag n m) ∧
    (∀ fuel st msg stE, run fuel st = .rtErr msg stE →
       ∃ m, msg = fmtDiag stE.current_instruction.line m) :=
  ⟨fun _ _ => rfl, fun _ _ => rfl,
   fun fuel p e h => parse_diag fuel p e h,
   fun fuel st msg stE h => run_rtErr fuel st msg stE h⟩

/-- Witness for `c8_diagnostic_format`: the compile error for
`var x = ;` and the runtime error for `print y;` both carry the
format (line 1). -/
theorem c8_diagnostic_format_witness :
    (∃ n m, "[line 1] Error: Expected expression." = fmtDiag n m) ∧
    (∃ m, "[line 1] Error: Undefined variable y" =
       fmtDiag (Byte.mk 17 1).line m) :=
  ⟨c8_diagnostic_format.2.2.1 50 (Parser.new "var x = ;")
     "[line 1] Error: Expected expression." (by decide),
   c8_diagnostic_format.2.2.2 50
     {VM.new with chunk := ⟨[⟨17, 1⟩, ⟨0, 1⟩, ⟨14, 1⟩, ⟨0, 1⟩], [.string "y"]⟩}
     "[line 1] Error: Undefined variable y"
     {VM.new with
       chunk := ⟨[⟨17, 1⟩, ⟨0, 1⟩, ⟨14, 1⟩, ⟨0, 1⟩], [.string "y"]⟩,
       ip := 2,
       current_instruction := ⟨17, 1⟩}
     (by decide)⟩

theorem bind_eq_ok {α β : Type} (x : Except PErr α) (f : α → Except PErr β)
    (b : β) (h : x >>= f = .ok b) : ∃ a, x = .ok a ∧ f a = .ok b := by
  cases x with
  | error e =>
    have h2 : (Except.error e : Except PErr β) = .ok b := h
    exact Except.noConfusion h2
  | ok a => exact ⟨a, rfl, h⟩

theorem decode_toByte (op : OpCode) : decodeOp op.toByte = some op := by
  cases op <;> rfl

theorem depthWalk_append : ∀ (n : Nat) (a : List Byte), a.length ≤ n →
    ∀ b d e, depthWalk a d = some e →
      depthWalk (a ++ b) d = depthWalk b e := by
  intro n
  induction n with
  | zero =>
    intro a ha b d e h
    cases a with
    | nil =>
      rw [depthWalk] at h
      injection h with h'
      rw [List.nil_append, h']
    | cons bb rest => simp at ha
  | succ n ihn =>
    intro a ha b d e h
    cases a with
    | nil =>
      rw [depthWalk] at h
      injection h with h'
      rw [List.nil_append, h']
    | cons bb rest =>
      rw [List.cons_append]
      rw [depthWalk] at h ⊢
      cases hd : decodeOp bb.byte with
      | none => rw [hd] at h; exact Option.noConfusion h
      | some op =>
        simp only [hd] at h ⊢
        cases he : opEffect op with
        | none => rw [he] at h; exact Option.noConfusion h
        | some eff =>
          obtain ⟨hasOp, need, out⟩ := eff
          simp only [he] at h ⊢
          by_cases hn : need ≤ d
          · simp only [if_pos hn] at h ⊢
            cases hasOp with
            | false =>
              simp only [if_neg (by simp : ¬ (false = true))] at h ⊢
              exact ihn rest (by simpa using Nat.le_of_succ_le_succ ha) b _ e h
            | true =>
              simp only [if_pos rfl] at h ⊢
              cases rest with
              | nil => exact Option.noConfusion h
              | cons ob rest2 =>
                rw [List.cons_append]
                exact ihn rest2 (by simp at ha; omega) b _ e h
          · rw [if_neg hn] at h
            exact Option.noConfusion h

theorem depthClosed_append : ∀ (n : Nat) (a : List Byte), a.length ≤ n →
    ∀ b d e, depthWalk a d = some e → depthClosed b e = true →
      depthClosed (a ++ b) d = true := by
  intro n
  induction n with
  | zero =>
    intro a ha b d e h hb
    cases a with
    | nil =>
      rw [depthWalk] at h
      injection h with h'
      rw [List.nil_append, h']
      exact hb
    | cons bb rest => simp at ha
  | succ n ihn =>
    intro a ha b d e h hb
    cases a with
    | nil =>
      rw [depthWalk] at h
      injection h with h'
      rw [List.nil_append, h']
      exact hb
    | cons bb rest =>
      rw [List.cons_append]
      rw [depthWalk] at h
      rw [depthClosed]
      cases hd : decodeOp bb.byte with
      | none => rw [hd] at h; exact Option.noConfusion h
      | some op =>
        simp only [hd] at h ⊢
        cases he : opEffect op with
        | none =>
          first
            | exact Option.noConfusion h
            | (rw [he] at h; all_goals exact Option.noConfusion h)
        | some eff =>
          obtain ⟨hasOp, need, out⟩ := eff
          simp only [he] at h ⊢
          by_cases hn : need ≤ d
          · simp only [if_pos hn] at h ⊢
            cases hasOp with
            | false =>
              simp only [if_neg (by simp : ¬ (false = true))] at h ⊢
              exact ihn rest (by simpa using Nat.le_of_succ_le_succ ha) b _ e h hb
            | true =>
              simp only [if_pos rfl] at h ⊢
              cases rest with
              | nil => exact Option.noConfusion h
              | cons ob rest2 =>
                rw [List.cons_append]
                exact ihn rest2 (by simp at ha; omega) b _ e h hb
          · rw [if_neg hn] at h
            exact Option.noConfusion h

theorem depthWalk_mono : ∀ (n : Nat) (a : List Byte), a.length ≤ n →
    ∀ d e k, depthWalk a d = some e → depthWalk a (d + k) = some (e + k) := by
  intro n
  induction n with
  | zero =>
    intro a ha d e k h
    cases a with
    | nil =>
      rw [depthWalk] at h ⊢
      injection h with h'
      rw [h']
    | cons bb rest => simp at ha
  | succ n ihn =>
    intro a ha d e k h
    cases a with
    | nil =>
      rw [depthWalk] at h ⊢
      injection h with h'
      rw [h']
    | cons bb rest =>
      rw [depthWalk] at h ⊢
      cases hd : decodeOp bb.byte with
      | none => rw [hd] at h; exact Option.noConfusion h
      | some op =>
        simp only [hd] at h ⊢
        cases he : opEffect op with
        | none => rw [he] at h; exact Option.noConfusion h
        | some eff =>
          obtain ⟨hasOp, need, out⟩ := eff
          simp only [he] at h ⊢
          by_cases hn : need ≤ d
          · simp only [if_pos hn, if_pos (le_trans hn (Nat.le_add_right d k))] at h ⊢
            have harith : d + k - need + out = (d - need + out) + k := by omega
            cases hasOp with
            | false =>
              simp only [if_neg (by simp : ¬ (false = true))] at h ⊢
              rw [harith]
              exact ihn rest (by simpa using Nat.le_of_succ_le_succ ha) _ e k h
            | true =>
              simp only [if_pos rfl] at h ⊢
              cases rest with
              | nil => exact Option.noConfusion h
              | cons ob rest2 =>
                rw [harith]
                exact ihn rest2 (by simp at ha; omega) _ e k h
          · rw [if_neg hn] at h
            exact Option.noConfusion h

theorem depthWalk_simple (op : OpCode) (l d need out : Nat)
    (he : opEffect op = some (false, need, out)) (hn : need ≤ d) :
    depthWalk [⟨op.toByte, l⟩] d = some (d - need + out) := by
  simp only [depthWalk, decode_toByte, he, if_pos hn]
  simp [depthWalk]

theorem depthWalk_operand (op : OpCode) (l g l2 d need out : Nat)
    (he : opEffect op = some (true, need, out)) (hn : need ≤ d) :
    depthWalk [⟨op.toByte, l⟩, ⟨g, l2⟩] d = some (d - need + out) := by
  simp only [depthWalk, decode_toByte, he, if_pos hn]
  simp [depthWalk]

theorem advanceP_chunk (p p' : Parser) (h : p.advanceP = .ok p') :
    p'.chunk = p.chunk := by
  simp only [Parser.advanceP] at h
  split at h
  · exact Except.noConfusion h
  · injection h with h'
    rw [← h']

theorem match_tok_chunk (p : Parser) (ty : TokenType) (m : Bool) (p' : Parser)
    (h : p.match_tok ty = .ok (m, p')) : p'.chunk = p.chunk := by
  unfold Parser.match_tok at h
  split at h
  · rcases bind_eq_ok _ _ _ h with ⟨p1, h1, h2⟩
    injection h2 with h3
    injection h3 with hm hp
    rw [← hp]
    exact advanceP_chunk _ _ h1
  · injection h with h3
    injection h3 with hm hp
    rw [← hp]

theorem consume_chunk (p : Parser) (ty : TokenType) (msg : String) (p' : Parser)
    (h : p.consume ty msg = .ok p') : p'.chunk = p.chunk := by
  unfold Parser.consume at h
  split at h
  · exact advanceP_chunk _ _ h
  · exact Except.noConfusion h

theorem make_constant_code (p : Parser) (v : Value) (i : Nat) (p' : Parser)
    (h : p.make_constant v = .ok (i, p')) :
    p'.chunk.code = p.chunk.code ∧ p'.previous = p.previous := by
  simp only [Parser.make_constant] at h
  split at h
  · exact Except.noConfusion h
  · injection h with h'
    injection h' with hi hp
    rw [← hp]
    exact ⟨rfl, rfl⟩

theorem identifier_constant_code (p : Parser) (tok : Token) (i : Nat) (p' : Parser)
    (h : p.identifier_constant tok = .ok (i, p')) :
    p'.chunk.code = p.chunk.code ∧ p'.previous = p.previous :=
  make_constant_code _ _ _ _ h

theorem parse_variable_code (p : Parser) (msg : String) (i : Nat) (p' : Parser)
    (h : p.parse_variable msg = .ok (i, p')) :
    p'.chunk.code = p.chunk.code := by
  unfold Parser.parse_variable at h
  rcases bind_eq_ok _ _ _ h with ⟨p1, h1, h2⟩
  rw [(identifier_constant_code _ _ _ _ h2).1]
  exact congrArg Chunk.code (consume_chunk _ _ _ _ h1)

theorem write_byte_code (p : Parser) (b : Nat) :
    (p.write_byte b).chunk.code = p.chunk.code ++ [⟨b, p.previous.line⟩] := rfl

theorem write_bytes_code (p : Parser) (b1 b2 : Nat) :
    (p.write_bytes b1 b2).chunk.code =
      p.chunk.code ++ [⟨b1, p.previous.line⟩, ⟨b2, p.previous.line⟩] := by
  simp [Parser.write_bytes, Parser.write_byte, Chunk.write_byte]

theorem write_constant_emits (p : Parser) (v : Value) (p' : Parser)
    (h : p.write_constant v = .ok p') :
    ∃ Δ, p'.chunk.code = p.chunk.code ++ Δ ∧
      ∀ d, depthWalk Δ d = some (d + 1) := by
  unfold Parser.write_constant at h
  rcases bind_eq_ok _ _ _ h with ⟨a, h1, h2⟩
  obtain ⟨i, p1⟩ := a
  obtain ⟨hcode, hprev⟩ := make_constant_code _ _ _ _ h1
  injection h2 with h2
  refine ⟨[⟨OpCode.Constant.toByte, p1.previous.line⟩, ⟨i, p1.previous.line⟩], ?_, ?_⟩
  · rw [← h2, write_bytes_code, hcode]
  · intro d
    have := depthWalk_operand .Constant p1.previous.line i p1.previous.line d 0 1 rfl
      (Nat.zero_le d)
    simpa using this

theorem numberFn_emits (p : Parser) (p' : Parser) (h : p.numberFn = .ok p') :
    ∃ Δ, p'.chunk.code = p.chunk.code ++ Δ ∧
      ∀ d, depthWalk Δ d = some (d + 1) := by
  unfold Parser.numberFn at h
  split at h
  · exact write_constant_emits _ _ _ h
  · exact Except.noConfusion h

theorem stringFn_emits (p : Parser) (p' : Parser) (h : p.stringFn = .ok p') :
    ∃ Δ, p'.chunk.code = p.chunk.code ++ Δ ∧
      ∀ d, depthWalk Δ d = some (d + 1) := by
  unfold Parser.stringFn at h
  split at h
  · exact write_constant_emits _ _ _ h
  · exact Except.noConfusion h

theorem literalFn_emits (p : Parser) (p' : Parser) (h : p.literalFn = .ok p') :
    ∃ Δ, p'.chunk.code = p.chunk.code ++ Δ ∧
      ∀ d, depthWalk Δ d = some (d + 1) := by
  unfold Parser.literalFn at h
  split at h
  · injection h with h2
    refine ⟨[⟨OpCode.False.toByte, p.previous.line⟩], by rw [← h2, write_byte_code], ?_⟩
    intro d
    have := depthWalk_simple .False p.previous.line d 0 1 rfl (Nat.zero_le d)
    simpa using this
  · injection h with h2
    refine ⟨[⟨OpCode.True.toByte, p.previous.line⟩], by rw [← h2, write_byte_code], ?_⟩
    intro d
    have := depthWalk_simple .True p.previous.line d 0 1 rfl (Nat.zero_le d)
    simpa using this
  · injection h with h2
    refine ⟨[⟨OpCode.Nil.toByte, p.previous.line⟩], by rw [← h2, write_byte_code], ?_⟩
    intro d
    have := depthWalk_simple .Nil p.previous.line d 0 1 rfl (Nat.zero_le d)
    simpa using this
  · exact Except.noConfusion h

theorem emitsOK_congr (c c' : PCall) (p q p' : Parser)
    (hlo : callLo c = callLo c') (hnet : callNet c = callNet c')
    (hq : q.chunk.code = p.chunk.code) (h : EmitsOK c' q p') : EmitsOK c p p' := by
  obtain ⟨Δ, h1, h2⟩ := h
  refine ⟨Δ, by rw [h1, hq], ?_⟩
  intro d
  rw [hlo, hnet]
  exact h2 d

theorem binary_single (p1 p' : Parser) (op : OpCode) (Δ pcode : List Byte)
    (hΔc : p1.chunk.code = pcode ++ Δ)
    (hΔw1 : ∀ d, depthWalk Δ d = some (d + 1))
    (he : opEffect op = some (false, 2, 1))
    (h5 : p1.write_byte op.toByte = p') :
    ∃ Δ2, p'.chunk.code = pcode ++ Δ2 ∧
      ∀ d, depthWalk Δ2 (d + 1) = some (d + 1) := by
  refine ⟨Δ ++ [⟨op.toByte, p1.previous.line⟩], ?_, ?_⟩
  · rw [← h5, write_byte_code, hΔc, List.append_assoc]
  · intro d
    rw [depthWalk_append Δ.length Δ (le_refl _) _ (d + 1) (d + 2) (hΔw1 (d + 1))]
    have := depthWalk_simple op p1.previous.line (d + 2) 2 1 he (by omega)
    simpa using this

theorem binary_double (p1 p' : Parser) (op : OpCode) (Δ pcode : List Byte)
    (hΔc : p1.chunk.code = pcode ++ Δ)
    (hΔw1 : ∀ d, depthWalk Δ d = some (d + 1))
    (he : opEffect op = some (false, 2, 1))
    (h5 : p1.write_bytes op.toByte OpCode.Not.toByte = p') :
    ∃ Δ2, p'.chunk.code = pcode ++ Δ2 ∧
      ∀ d, depthWalk Δ2 (d + 1) = some (d + 1) := by
  refine ⟨Δ ++ [⟨op.toByte, p1.previous.line⟩,
                ⟨OpCode.Not.toByte, p1.previous.line⟩], ?_, ?_⟩
  · rw [← h5, write_bytes_code, hΔc, List.append_assoc]
  · intro d
    rw [depthWalk_append Δ.length Δ (le_refl _) _ (d + 1) (d + 2) (hΔw1 (d + 1))]
    rw [show ([⟨op.toByte, p1.previous.line⟩,
               ⟨OpCode.Not.toByte, p1.previous.line⟩] : List Byte)
        = [(⟨op.toByte, p1.previous.line⟩ : Byte)] ++
          [(⟨OpCode.Not.toByte, p1.previous.line⟩ : Byte)] from rfl]
    have hwa := depthWalk_simple op p1.previous.line (d + 2) 2 1 he (by omega)
    rw [depthWalk_append 1 _ (by simp) _ (d + 2) (d + 2 - 2 + 1) hwa]
    have := depthWalk_simple .Not p1.previous.line (d + 2 - 2 + 1) 1 1 rfl (by omega)
    simpa using this

theorem parseStep_emits : ∀ fuel c p p', parseStep fuel c p = .ok p' →
    EmitsOK c p p' := by
  intro fuel
  induction fuel with
  | zero =>
    intro c p p' h
    rw [parseStep] at h
    exact Except.noConfusion h
  | succ f ih =>
    intro c p p' h
    cases c with
    | decl =>
      simp only [parseStep] at h
      rcases bind_eq_ok _ _ _ h with ⟨a, h1, h⟩
      obtain ⟨m, p1⟩ := a
      have hc := congrArg Chunk.code (match_tok_chunk _ _ _ _ h1)
      cases m
      · exact emitsOK_congr _ .stmt _ _ _ rfl rfl hc (ih _ _ _ h)
      · exact emitsOK_congr _ .varDecl _ _ _ rfl rfl hc (ih _ _ _ h)
    | varDecl =>
      simp only [parseStep] at h
      rcases bind_eq_ok _ _ _ h with ⟨a, h1, h⟩
      obtain ⟨g, p1⟩ := a
      have hc1 := parse_variable_code _ _ _ _ h1
      rcases bind_eq_ok _ _ _ h with ⟨a2, h2, h⟩
      obtain ⟨m, p2⟩ := a2
      have hc2 := congrArg Chunk.code (match_tok_chunk _ _ _ _ h2)
      split at h
      · rcases bind_eq_ok _ _ _ h with ⟨p3, h3, h⟩
        obtain ⟨Δ, hΔc, hΔw⟩ := ih _ _ _ h3
        rcases bind_eq_ok _ _ _ h with ⟨p4, h4, h⟩
        have hc4 := congrArg Chunk.code (consume_chunk _ _ _ _ h4)
        injection h with h5
        refine ⟨Δ ++ [⟨OpCode.DefineGlobal.toByte, p4.previous.line⟩,
                      ⟨g, p4.previous.line⟩], ?_, ?_⟩
        · rw [← h5]
          show (p4.write_bytes _ _).chunk.code = _
          rw [write_bytes_code, hc4, hΔc, hc2, hc1, List.append_assoc]
        · intro d
          simp only [callLo, callNet, Nat.add_zero]
          have hw1 : depthWalk Δ d = some (d + 1) := by simpa using hΔw d
          rw [depthWalk_append Δ.length Δ (le_refl _) _ d (d + 1) hw1]
          have := depthWalk_operand .DefineGlobal p4.previous.line g
            p4.previous.line (d + 1) 1 0 rfl (by omega)
          simpa using this
      · rcases bind_eq_ok _ _ _ h with ⟨p3, h3, h⟩
        injection h3 with h3
        rcases bind_eq_ok _ _ _ h with ⟨p4, h4, h⟩
        have hc4 := congrArg Chunk.code (consume_chunk _ _ _ _ h4)
        injection h with h5
        refine ⟨[⟨OpCode.Nil.toByte, p2.previous.line⟩,
                 ⟨OpCode.DefineGlobal.toByte, p4.previous.line⟩,
                 ⟨g, p4.previous.line⟩], ?_, ?_⟩
        · rw [← h5]
          show (p4.write_bytes _ _).chunk.code = _
          rw [write_bytes_code, hc4, ← h3, write_byte_code, hc2, hc1,
              List.append_assoc]
          simp
        · intro d
          simp only [callLo, callNet, Nat.add_zero]
          have hw1 : depthWalk [(⟨OpCode.Nil.toByte, p2.previous.line⟩ : Byte)] d
              = some (d + 1) := by
            have := depthWalk_simple .Nil p2.previous.line d 0 1 rfl (Nat.zero_le d)
            simpa using this
          have happ := depthWalk_append 1
            [(⟨OpCode.Nil.toByte, p2.previous.line⟩ : Byte)] (by simp)
            [⟨OpCode.DefineGlobal.toByte, p4.previous.line⟩, ⟨g, p4.previous.line⟩]
            d (d + 1) hw1
          rw [show ([(⟨OpCode.Nil.toByte, p2.previous.line⟩ : Byte)] ++
              [⟨OpCode.DefineGlobal.toByte, p4.previous.line⟩, ⟨g, p4.previous.line⟩])
              = [(⟨OpCode.Nil.toByte, p2.previous.line⟩ : Byte),
                 ⟨OpCode.DefineGlobal.toByte, p4.previous.line⟩,
                 ⟨g, p4.previous.line⟩] from rfl] at happ
          rw [happ]
          have := depthWalk_operand .DefineGlobal p4.previous.line g
            p4.previous.line (d + 1) 1 0 rfl (by omega)
          simpa using this
    | stmt =>
      simp only [parseStep] at h
      rcases bind_eq_ok _ _ _ h with ⟨a, h1, h⟩
      obtain ⟨m, p1⟩ := a
      have hc1 := congrArg Chunk.code (match_tok_chunk _ _ _ _ h1)
      cases m
      · rcases bind_eq_ok _ _ _ h with ⟨a2, h2, h⟩
        obtain ⟨m2, p2⟩ := a2
        have hc2 := congrArg Chunk.code (match_tok_chunk _ _ _ _ h2)
        cases m2
        · exact emitsOK_congr _ .exprStmt _ _ _ rfl rfl (hc2.trans hc1) (ih _ _ _ h)
        · rcases bind_eq_ok _ _ _ h with ⟨p3, h3, h⟩
          obtain ⟨Δ, hΔc, hΔw⟩ := ih _ _ _ h3
          have hc4 := congrArg Chunk.code (consume_chunk _ _ _ _ h)
          refine ⟨Δ, ?_, ?_⟩
          · rw [hc4, hΔc, hc2, hc1]
          · intro d
            exact hΔw d
      · exact emitsOK_congr _ .printStmt _ _ _ rfl rfl hc1 (ih _ _ _ h)
    | blockLoop =>
      simp only [parseStep] at h
      split at h
      · rcases bind_eq_ok _ _ _ h with ⟨p1, h1, h⟩
        obtain ⟨Δ1, hc1, hw1⟩ := ih _ _ _ h1
        obtain ⟨Δ2, hc2, hw2⟩ := ih _ _ _ h
        refine ⟨Δ1 ++ Δ2, by rw [hc2, hc1, List.append_assoc], ?_⟩
        intro d
        simp only [callLo, callNet, Nat.add_zero] at hw1 hw2 ⊢
        rw [depthWalk_append Δ1.length Δ1 (le_refl _) Δ2 d d (hw1 d)]
        exact hw2 d
      · injection h with h5
        exact ⟨[], by rw [← h5, List.append_nil],
               by intro d; simp [depthWalk, callLo, callNet]⟩
    | exprStmt =>
      simp only [parseStep] at h
      rcases bind_eq_ok _ _ _ h with ⟨p1, h1, h⟩
      obtain ⟨Δ, hΔc, hΔw⟩ := ih _ _ _ h1
      rcases bind_eq_ok _ _ _ h with ⟨p2, h2, h⟩
      have hc2 := congrArg Chunk.code (consume_chunk _ _ _ _ h2)
      injection h with h5
      refine ⟨Δ ++ [⟨OpCode.Pop.toByte, p2.previous.line⟩], ?_, ?_⟩
      · rw [← h5, write_byte_code, hc2, hΔc, List.append_assoc]
      · intro d
        simp only [callLo, callNet, Nat.add_zero]
        have hw1 : depthWalk Δ d = some (d + 1) := by simpa using hΔw d
        rw [depthWalk_append Δ.length Δ (le_refl _) _ d (d + 1) hw1]
        have := depthWalk_simple .Pop p2.previous.line (d + 1) 1 0 rfl (by omega)
        simpa using this
    | printStmt =>
      simp only [parseStep] at h
      rcases bind_eq_ok _ _ _ h with ⟨p1, h1, h⟩
      obtain ⟨Δ, hΔc, hΔw⟩ := ih _ _ _ h1
      rcases bind_eq_ok _ _ _ h with ⟨p2, h2, h⟩
      have hc2 := congrArg Chunk.code (consume_chunk _ _ _ _ h2)
      injection h with h5
      refine ⟨Δ ++ [⟨OpCode.Print.toByte, p2.previous.line⟩], ?_, ?_⟩
      · rw [← h5, write_byte_code, hc2, hΔc, List.append_assoc]
      · intro d
        simp only [callLo, callNet, Nat.add_zero]
        have hw1 : depthWalk Δ d = some (d + 1) := by simpa using hΔw d
        rw [depthWalk_append Δ.length Δ (le_refl _) _ d (d + 1) hw1]
        have := depthWalk_simple .Print p2.previous.line (d + 1) 1 0 rfl (by omega)
        simpa using this
    | expr =>
      simp only [parseStep] at h
      exact emitsOK_congr _ (.parsePrec 1) _ _ _ rfl rfl rfl (ih _ _ _ h)
    | parsePrec prec =>
      simp only [parseStep] at h
      rcases bind_eq_ok _ _ _ h with ⟨p1, h1, h⟩
      have hc1 := congrArg Chunk.code (advanceP_chunk _ _ h1)
      split at h
      · exact Except.noConfusion h
      · rcases bind_eq_ok _ _ _ h with ⟨p2, h2, h⟩
        obtain ⟨Δ1, hcd1, hwd1⟩ := ih _ _ _ h2
        obtain ⟨Δ2, hcd2, hwd2⟩ := ih _ _ _ h
        refine ⟨Δ1 ++ Δ2, by rw [hcd2, hcd1, hc1, List.append_assoc], ?_⟩
        intro d
        simp only [callLo, callNet, Nat.add_zero] at hwd1 hwd2 ⊢
        have hw1 : depthWalk Δ1 d = some (d + 1) := hwd1 d
        rw [depthWalk_append Δ1.length Δ1 (le_refl _) Δ2 d (d + 1) hw1]
        exact hwd2 d
    | infixStep prec ca =>
      simp only [parseStep] at h
      split at h
      · rcases bind_eq_ok _ _ _ h with ⟨p1, h1, h⟩
        have hc1 := congrArg Chunk.code (advanceP_chunk _ _ h1)
        split at h
        · rcases bind_eq_ok _ _ _ h with ⟨p2, h2, h⟩
          obtain ⟨Δ1, hcd1, hwd1⟩ := ih _ _ _ h2
          obtain ⟨Δ2, hcd2, hwd2⟩ := ih _ _ _ h
          refine ⟨Δ1 ++ Δ2, by rw [hcd2, hcd1, hc1, List.append_assoc], ?_⟩
          intro d
          simp only [callLo, callNet, Nat.add_zero] at hwd1 hwd2 ⊢
          have hw1 : depthWalk Δ1 (d + 1) = some (d + 1) := hwd1 d
          rw [depthWalk_append Δ1.length Δ1 (le_refl _) Δ2 (d + 1) (d + 1) hw1]
          exact hwd2 d
        · exact Except.noConfusion h
      · injection h with h5
        exact ⟨[], by rw [← h5, List.append_nil],
               by intro d; simp [depthWalk, callLo, callNet]⟩
    | prefixRun pf ca =>
      cases pf with
      | grouping =>
        simp only [parseStep] at h
        rcases bind_eq_ok _ _ _ h with ⟨p1, h1, h⟩
        obtain ⟨Δ, hΔc, hΔw⟩ := ih _ _ _ h1
        have hc2 := congrArg Chunk.code (consume_chunk _ _ _ _ h)
        refine ⟨Δ, by rw [hc2, hΔc], ?_⟩
        intro d
        exact hΔw d
      | unaryFn =>
        simp only [parseStep] at h
        rcases bind_eq_ok _ _ _ h with ⟨p1, h1, h⟩
        obtain ⟨Δ, hΔc, hΔw⟩ := ih _ _ _ h1
        split at h
        · injection h with h5
          refine ⟨Δ ++ [⟨OpCode.Negate.toByte, p1.previous.line⟩], ?_, ?_⟩
          · rw [← h5, write_byte_code, hΔc, List.append_assoc]
          · intro d
            simp only [callLo, callNet, Nat.add_zero] at hΔw ⊢
            have hw1 : depthWalk Δ d = some (d + 1) := hΔw d
            rw [depthWalk_append Δ.length Δ (le_refl _) _ d (d + 1) hw1]
            have := depthWalk_simple .Negate p1.previous.line (d + 1) 1 1 rfl (by omega)
            simpa using this
        · injection h with h5
          refine ⟨Δ ++ [⟨OpCode.Not.toByte, p1.previous.line⟩], ?_, ?_⟩
          · rw [← h5, write_byte_code, hΔc, List.append_assoc]
          · intro d
            simp only [callLo, callNet, Nat.add_zero] at hΔw ⊢
            have hw1 : depthWalk Δ d = some (d + 1) := hΔw d
            rw [depthWalk_append Δ.length Δ (le_refl _) _ d (d + 1) hw1]
            have := depthWalk_simple .Not p1.previous.line (d + 1) 1 1 rfl (by omega)
            simpa using this
        · exact Except.noConfusion h
      | numberFn =>
        simp only [parseStep] at h
        obtain ⟨Δ, hΔc, hΔw⟩ := numberFn_emits _ _ h
        refine ⟨Δ, hΔc, ?_⟩
        intro d
        simp only [callLo, callNet, Nat.add_zero]
        exact hΔw d
      | literalFn =>
        simp only [parseStep] at h
        obtain ⟨Δ, hΔc, hΔw⟩ := literalFn_emits _ _ h
        refine ⟨Δ, hΔc, ?_⟩
        intro d
        simp only [callLo, callNet, Nat.add_zero]
        exact hΔw d
      | stringFn =>
        simp only [parseStep] at h
        obtain ⟨Δ, hΔc, hΔw⟩ := stringFn_emits _ _ h
        refine ⟨Δ, hΔc, ?_⟩
        intro d
        simp only [callLo, callNet, Nat.add_zero]
        exact hΔw d
      | variableFn =>
        simp only [parseStep] at h
        exact emitsOK_congr _ (.namedVar p.previous ca) _ _ _ rfl rfl rfl (ih _ _ _ h)
    | binaryRun =>
      simp only [parseStep] at h
      rcases bind_eq_ok _ _ _ h with ⟨p1, h1, h⟩
      obtain ⟨Δ, hΔc, hΔw⟩ := ih _ _ _ h1
      have hΔw1 : ∀ d, depthWalk Δ d = some (d + 1) := by
        intro d
        simpa using hΔw d
      have fin : (∃ Δ2, p'.chunk.code = p.chunk.code ++ Δ2 ∧
          ∀ d, depthWalk Δ2 (d + 1) = some (d + 1)) → EmitsOK .binaryRun p p' := by
        rintro ⟨Δ2, hc, hw⟩
        exact ⟨Δ2, hc, by intro d; simpa [callLo, callNet] using hw d⟩
      split at h
      · injection h with h5
        exact fin (binary_single p1 p' .Add Δ p.chunk.code hΔc hΔw1 rfl h5)
      · injection h with h5
        exact fin (binary_single p1 p' .Subtract Δ p.chunk.code hΔc hΔw1 rfl h5)
      · injection h with h5
        exact fin (binary_single p1 p' .Multiply Δ p.chunk.code hΔc hΔw1 rfl h5)
      · injection h with h5
        exact fin (binary_single p1 p' .Divide Δ p.chunk.code hΔc hΔw1 rfl h5)
      · injection h with h5
        exact fin (binary_double p1 p' .Equal Δ p.chunk.code hΔc hΔw1 rfl h5)
      · injection h with h5
        exact fin (binary_single p1 p' .Equal Δ p.chunk.code hΔc hΔw1 rfl h5)
      · injection h with h5
        exact fin (binary_single p1 p' .Greater Δ p.chunk.code hΔc hΔw1 rfl h5)
      · injection h with h5
        exact fin (binary_double p1 p' .Less Δ p.chunk.code hΔc hΔw1 rfl h5)
      · injection h with h5
        exact fin (binary_single p1 p' .Less Δ p.chunk.code hΔc hΔw1 rfl h5)
      · injection h with h5
        exact fin (binary_double p1 p' .Greater Δ p.chunk.code hΔc hΔw1 rfl h5)
      · exact Except.noConfusion h
    | namedVar name ca =>
      simp only [parseStep] at h
      rcases bind_eq_ok _ _ _ h with ⟨a, h1, h⟩
      obtain ⟨arg, p1⟩ := a
      obtain ⟨hc1, hp1⟩ := identifier_constant_code _ _ _ _ h1
      cases ca
      · injection h with h5
        refine ⟨[⟨OpCode.GetGlobal.toByte, p1.previous.line⟩, ⟨arg, p1.previous.line⟩], ?_, ?_⟩
        · rw [← h5, write_bytes_code, hc1]
        · intro d
          simp only [callLo, callNet, Nat.add_zero]
          have := depthWalk_operand .GetGlobal p1.previous.line arg
            p1.previous.line d 0 1 rfl (Nat.zero_le d)
          simpa using this
      · rcases bind_eq_ok _ _ _ h with ⟨a2, h2, h⟩
        obtain ⟨m, p2⟩ := a2
        have hc2 := congrArg Chunk.code (match_tok_chunk _ _ _ _ h2)
        cases m
        · injection h with h5
          refine ⟨[⟨OpCode.GetGlobal.toByte, p2.previous.line⟩, ⟨arg, p2.previous.line⟩], ?_, ?_⟩
          · rw [← h5, write_bytes_code, hc2, hc1]
          · intro d
            simp only [callLo, callNet, Nat.add_zero]
            have := depthWalk_operand .GetGlobal p2.previous.line arg
              p2.previous.line d 0 1 rfl (Nat.zero_le d)
            simpa using this
        · rcases bind_eq_ok _ _ _ h with ⟨p3, h3, h⟩
          obtain ⟨Δ, hΔc, hΔw⟩ := ih _ _ _ h3
          injection h with h5
          refine ⟨Δ ++ [⟨OpCode.SetGlobal.toByte, p3.previous.line⟩, ⟨arg, p3.previous.line⟩], ?_, ?_⟩
          · rw [← h5, write_bytes_code, hΔc, hc2, hc1, List.append_assoc]
          · intro d
            simp only [callLo, callNet, Nat.add_zero] at hΔw ⊢
            have hw1 : depthWalk Δ d = some (d + 1) := by simpa using hΔw d
            rw [depthWalk_append Δ.length Δ (le_refl _) _ d (d + 1) hw1]
            have := depthWalk_operand .SetGlobal p3.previous.line arg
              p3.previous.line (d + 1) 1 1 rfl (by omega)
            simpa using this
    | topLoop =>
      simp only [parseStep] at h
      rcases bind_eq_ok _ _ _ h with ⟨a, h1, h⟩
      obtain ⟨m, p1⟩ := a
      have hc1 := congrArg Chunk.code (match_tok_chunk _ _ _ _ h1)
      cases m
      · rcases bind_eq_ok _ _ _ h with ⟨p2, h2, h⟩
        obtain ⟨Δ1, hcd1, hwd1⟩ := ih _ _ _ h2
        obtain ⟨Δ2, hcd2, hwd2⟩ := ih _ _ _ h
        refine ⟨Δ1 ++ Δ2, by rw [hcd2, hcd1, hc1, List.append_assoc], ?_⟩
        intro d
        simp only [callLo, callNet, Nat.add_zero] at hwd1 hwd2 ⊢
        rw [depthWalk_append Δ1.length Δ1 (le_refl _) Δ2 d d (hwd1 d)]
        exact hwd2 d
      · injection h with h5
        exact ⟨[], by rw [← h5, List.append_nil, hc1],
               by intro d; simp [depthWalk, callLo, callNet]⟩

theorem parse_closed (fuel : Nat) (p : Parser) (ch : Chunk)
    (h : Parser.parse fuel p = .ok ch) : depthClosed ch.code 0 = true := by
  simp only [Parser.parse] at h
  rcases bind_eq_ok _ _ _ h with ⟨p1, h1, h⟩
  have hc1 : p1.chunk = Chunk.new := advanceP_chunk _ _ h1
  rcases bind_eq_ok _ _ _ h with ⟨p2, h2, h⟩
  obtain ⟨Δ, hΔc, hΔw⟩ := parseStep_emits _ _ _ _ h2
  injection h with h5
  have hcode : ch.code = Δ ++ [⟨OpCode.Return.toByte, p2.previous.line⟩] := by
    rw [← h5, write_byte_code, hΔc, hc1]
    rfl
  rw [hcode]
  have hw : depthWalk Δ 0 = some 0 := by simpa [callLo, callNet] using hΔw 0
  refine depthClosed_append Δ.length Δ (le_refl _) _ 0 0 hw ?_
  simp [depthClosed, decodeOp, OpCode.toByte, opEffect]

theorem drop_cons (l : List Byte) (i : Nat) (b : Byte) (rest : List Byte)
    (h : l.drop i = b :: rest) : l[i]? = some b ∧ l.drop (i + 1) = rest := by
  constructor
  · have h0 : (l.drop i)[0]? = some b := by rw [h]; simp
    rw [List.getElem?_drop] at h0
    simpa using h0
  · have h1 : l.drop (i + 1) = (l.drop i).drop 1 := by
      rw [List.drop_drop]
    rw [h1, h]
    rfl

theorem run_no_underflow : ∀ fuel st,
    depthClosed (st.chunk.code.drop st.ip) st.stack.length = true →
    (run fuel st).isUnderflow = false := by
  intro fuel
  induction fuel with
  | zero =>
    intro st h
    rw [run]
    rfl
  | succ f ih =>
    intro st h
    cases hd : st.chunk.code.drop st.ip with
    | nil =>
      rw [hd] at h
      simp [depthClosed] at h
    | cons b rest =>
      obtain ⟨hb0, hrest⟩ := drop_cons _ _ _ _ hd
      have hb : st.chunk.get_byte? st.ip = some b := hb0
      rw [hd] at h
      rw [depthClosed] at h
      cases hop : decodeOp b.byte with
      | none => rw [hop] at h; simp at h
      | some op =>
        simp only [hop] at h
        cases op with
        | Return =>
          rw [run]; unfold step; rw [hb]
          simp [hop, RunResult.isUnderflow]
        | Constant =>
          simp [opEffect] at h
          cases hr2 : rest with
          | nil => rw [hr2] at h; simp at h
          | cons ob rest2 =>
            rw [hr2] at h
            obtain ⟨hob0, hrest2⟩ := drop_cons _ _ _ _ (hrest.trans hr2)
            have hob : st.chunk.get_byte? (st.ip + 1) = some ob := hob0
            cases hv : st.chunk.get_value? ob.byte with
            | none =>
              rw [run]; unfold step; rw [hb]
              simp [hop, hob, hv, RunResult.isUnderflow]
            | some v =>
              by_cases hlen : 256 ≤ st.stack.length
              · rw [run]; unfold step pushStep; rw [hb]
                simp [hop, hob, hv, hlen, RunResult.isUnderflow]
              · rw [run]; unfold step pushStep; rw [hb]
                simp [hop, hob, hv, hlen]
                apply ih
                simpa [hrest2] using h
        | Nil =>
          simp [opEffect] at h
          by_cases hlen : 256 ≤ st.stack.length
          · rw [run]; unfold step pushStep; rw [hb]
            simp [hop, hlen, RunResult.isUnderflow]
          · rw [run]; unfold step pushStep; rw [hb]
            simp [hop, hlen]
            apply ih
            simpa [hrest] using h
        | True =>
          simp [opEffect] at h
          by_cases hlen : 256 ≤ st.stack.length
          · rw [run]; unfold step pushStep; rw [hb]
            simp [hop, hlen, RunResult.isUnderflow]
          · rw [run]; unfold step pushStep; rw [hb]
            simp [hop, hlen]
            apply ih
            simpa [hrest] using h
        | False =>
          simp [opEffect] at h
          by_cases hlen : 256 ≤ st.stack.length
          · rw [run]; unfold step pushStep; rw [hb]
            simp [hop, hlen, RunResult.isUnderflow]
          · rw [run]; unfold step pushStep; rw [hb]
            simp [hop, hlen]
            apply ih
            simpa [hrest] using h

        | Negate =>
          simp only [opEffect] at h
          split at h
          · rename_i hcond
            cases hstk : st.stack with
            | nil => rw [hstk] at hcond; simp at hcond
            | cons v s =>
              by_cases hnum : v.is_number
              · rw [run]; unfold step; rw [hb]
                simp [hop, hstk, hnum]
                apply ih
                rw [hstk] at h
                simp at h
                simpa [hrest] using h
              · rw [run]; unfold step; rw [hb]
                simp [hop, hstk, hnum, RunResult.isUnderflow]
          · simp at h
        | Add =>
          simp only [opEffect] at h
          split at h
          · rename_i hcond
            cases hstk : st.stack with
            | nil => rw [hstk] at hcond; simp at hcond
            | cons v0 rest0 =>
              cases rest0 with
              | nil => rw [hstk] at hcond; simp at hcond
              | cons v1 s =>
                by_cases hs0 : v0.is_string
                · by_cases hs1 : v1.is_string
                  · rw [run]; unfold step; rw [hb]
                    simp [hop, hstk, hs0, hs1]
                    apply ih
                    rw [hstk] at h
                    simp at h
                    simpa [hrest] using h
                  · rw [run]; unfold step; rw [hb]
                    simp [hop, hstk, hs0, hs1, RunResult.isUnderflow]
                · by_cases hn0 : v0.is_number
                  · by_cases hn1 : v1.is_number
                    · rw [run]; unfold step; rw [hb]
                      simp [hop, hstk, hs0, hn0, hn1]
                      apply ih
                      rw [hstk] at h
                      simp at h
                      simpa [hrest] using h
                    · rw [run]; unfold step; rw [hb]
                      simp [hop, hstk, hs0, hn0, hn1, RunResult.isUnderflow]
                  · rw [run]; unfold step; rw [hb]
                    simp [hop, hstk, hs0, hn0, RunResult.isUnderflow]
          · simp at h
        | Subtract =>
          simp only [opEffect] at h
          split at h
          · rename_i hcond
            cases hstk : st.stack with
            | nil => rw [hstk] at hcond; simp at hcond
            | cons v0 rest0 =>
              cases rest0 with
              | nil => rw [hstk] at hcond; simp at hcond
              | cons v1 s =>
                by_cases h0 : v0.is_number
                · by_cases h1 : v1.is_number
                  · rw [run]; unfold step binopStep; rw [hb]
                    simp [hop, hstk, h0, h1]
                    apply ih
                    rw [hstk] at h
                    simp at h
                    simpa [hrest] using h
                  · rw [run]; unfold step binopStep; rw [hb]
                    simp [hop, hstk, h0, h1, RunResult.isUnderflow]
                · rw [run]; unfold step binopStep; rw [hb]
                  simp [hop, hstk, h0, RunResult.isUnderflow]
          · simp at h
        | Multiply =>
          simp only [opEffect] at h
          split at h
          · rename_i hcond
            cases hstk : st.stack with
            | nil => rw [hstk] at hcond; simp at hcond
            | cons v0 rest0 =>
              cases rest0 with
              | nil => rw [hstk] at hcond; simp at hcond
              | cons v1 s =>
                by_cases h0 : v0.is_number
                · by_cases h1 : v1.is_number
                  · rw [run]; unfold step binopStep; rw [hb]
                    simp [hop, hstk, h0, h1]
                    apply ih
                    rw [hstk] at h
                    simp at h
                    simpa [hrest] using h
                  · rw [run]; unfold step binopStep; rw [hb]
                    simp [hop, hstk, h0, h1, RunResult.isUnderflow]
                · rw [run]; unfold step binopStep; rw [hb]
                  simp [hop, hstk, h0, RunResult.isUnderflow]
          · simp at h
        | Divide =>
          simp only [opEffect] at h
          split at h
          · rename_i hcond
            cases hstk : st.stack with
            | nil => rw [hstk] at hcond; simp at hcond
            | cons v0 rest0 =>
              cases rest0 with
              | nil => rw [hstk] at hcond; simp at hcond
              | cons v1 s =>
                by_cases h0 : v0.is_number
                · by_cases h1 : v1.is_number
                  · rw [run]; unfold step binopStep; rw [hb]
                    simp [hop, hstk, h0, h1]
                    apply ih
                    rw [hstk] at h
                    simp at h
                    simpa [hrest] using h
                  · rw [run]; unfold step binopStep; rw [hb]
                    simp [hop, hstk, h0, h1, RunResult.isUnderflow]
                · rw [run]; unfold step binopStep; rw [hb]
                  simp [hop, hstk, h0, RunResult.isUnderflow]
          · simp at h

        | Not =>
          simp only [opEffect] at h
          split at h
          · rename_i hcond
            cases hstk : st.stack with
            | nil => rw [hstk] at hcond; simp at hcond
            | cons v s =>
              rw [run]; unfold step; rw [hb]
              simp [hop, hstk]
              apply ih
              rw [hstk] at h
              simp at h
              simpa [hrest] using h
          · simp at h
        | Equal =>
          simp only [opEffect] at h
          split at h
          · rename_i hcond
            cases hstk : st.stack with
            | nil => rw [hstk] at hcond; simp at hcond
            | cons v0 rest0 =>
              cases rest0 with
              | nil => rw [hstk] at hcond; simp at hcond
              | cons v1 s =>
                rw [run]; unfold step; rw [hb]
                simp [hop, hstk]
                apply ih
                rw [hstk] at h
                simp at h
                simpa [hrest] using h
          · simp at h
        | Greater =>
          simp only [opEffect] at h
          split at h
          · rename_i hcond
            cases hstk : st.stack with
            | nil => rw [hstk] at hcond; simp at hcond
            | cons v0 rest0 =>
              cases rest0 with
              | nil => rw [hstk] at hcond; simp at hcond
              | cons v1 s =>
                by_cases h0 : v0.is_number
                · by_cases h1 : v1.is_number
                  · rw [run]; unfold step binopStep; rw [hb]
                    simp [hop, hstk, h0, h1]
                    apply ih
                    rw [hstk] at h
                    simp at h
                    simpa [hrest] using h
                  · rw [run]; unfold step binopStep; rw [hb]
                    simp [hop, hstk, h0, h1, RunResult.isUnderflow]
                · rw [run]; unfold step binopStep; rw [hb]
                  simp [hop, hstk, h0, RunResult.isUnderflow]
          · simp at h
        | Less =>
          simp only [opEffect] at h
          split at h
          · rename_i hcond
            cases hstk : st.stack with
            | nil => rw [hstk] at hcond; simp at hcond
            | cons v0 rest0 =>
              cases rest0 with
              | nil => rw [hstk] at hcond; simp at hcond
              | cons v1 s =>
                by_cases h0 : v0.is_number
                · by_cases h1 : v1.is_number
                  · rw [run]; unfold step binopStep; rw [hb]
                    simp [hop, hstk, h0, h1]
                    apply ih
                    rw [hstk] at h
                    simp at h
                    simpa [hrest] using h
                  · rw [run]; unfold step binopStep; rw [hb]
                    simp [hop, hstk, h0, h1, RunResult.isUnderflow]
                · rw [run]; unfold step binopStep; rw [hb]
                  simp [hop, hstk, h0, RunResult.isUnderflow]
          · simp at h
        | Print =>
          simp only [opEffect] at h
          split at h
          · rename_i hcond
            cases hstk : st.stack with
            | nil => rw [hstk] at hcond; simp at hcond
            | cons v s =>
              rw [run]; unfold step; rw [hb]
              simp [hop, hstk]
              apply ih
              rw [hstk] at h
              simp at h
              simpa [hrest] using h
          · simp at h
        | Pop =>
          simp only [opEffect] at h
          split at h
          · rename_i hcond
            cases hstk : st.stack with
            | nil => rw [hstk] at hcond; simp at hcond
            | cons v s =>
              rw [run]; unfold step; rw [hb]
              simp [hop, hstk]
              apply ih
              rw [hstk] at h
              simp at h
              simpa [hrest] using h
          · simp at h

        | DefineGlobal =>
          simp only [opEffect] at h
          split at h
          · rename_i hcond
            cases hr2 : rest with
            | nil => rw [hr2] at h; simp at h
            | cons ob rest2 =>
              rw [hr2] at h
              simp at h
              obtain ⟨hob0, hrest2⟩ := drop_cons _ _ _ _ (hrest.trans hr2)
              have hob : st.chunk.get_byte? (st.ip + 1) = some ob := hob0
              cases hv : st.chunk.get_value? ob.byte with
              | none =>
                rw [run]; unfold step; rw [hb]
                simp [hop, hob, hv, RunResult.isUnderflow]
              | some nv =>
                cases hstk : st.stack with
                | nil => rw [hstk] at hcond; simp at hcond
                | cons v s =>
                  rw [run]; unfold step; rw [hb]
                  simp [hop, hob, hv, hstk]
                  apply ih
                  rw [hstk] at h
                  simp at h
                  simpa [hrest2] using h
          · simp at h
        | GetGlobal =>
          simp [opEffect] at h
          cases hr2 : rest with
          | nil => rw [hr2] at h; simp at h
          | cons ob rest2 =>
            rw [hr2] at h
            obtain ⟨hob0, hrest2⟩ := drop_cons _ _ _ _ (hrest.trans hr2)
            have hob : st.chunk.get_byte? (st.ip + 1) = some ob := hob0
            cases hv : st.chunk.get_value? ob.byte with
            | none =>
              rw [run]; unfold step; rw [hb]
              simp [hop, hob, hv, RunResult.isUnderflow]
            | some nv =>
              cases ht : tableGet st.globals nv.to_text with
              | none =>
                rw [run]; unfold step; rw [hb]
                simp [hop, hob, hv, ht, RunResult.isUnderflow]
              | some v =>
                by_cases hlen : 256 ≤ st.stack.length
                · rw [run]; unfold step pushStep; rw [hb]
                  simp [hop, hob, hv, ht, hlen, RunResult.isUnderflow]
                · rw [run]; unfold step pushStep; rw [hb]
                  simp [hop, hob, hv, ht, hlen]
                  apply ih
                  simpa [hrest2] using h
        | SetGlobal =>
          simp only [opEffect] at h
          split at h
          · rename_i hcond
            cases hr2 : rest with
            | nil => rw [hr2] at h; simp at h
            | cons ob rest2 =>
              rw [hr2] at h
              simp at h
              obtain ⟨hob0, hrest2⟩ := drop_cons _ _ _ _ (hrest.trans hr2)
              have hob : st.chunk.get_byte? (st.ip + 1) = some ob := hob0
              cases hv : st.chunk.get_value? ob.byte with
              | none =>
                rw [run]; unfold step; rw [hb]
                simp [hop, hob, hv, RunResult.isUnderflow]
              | some nv =>
                by_cases hg : tableContains st.globals nv.to_text
                · cases hstk : st.stack with
                  | nil => rw [hstk] at hcond; simp at hcond
                  | cons v s =>
                    rw [run]; unfold step; rw [hb]
                    simp [hop, hob, hv, hg, hstk]
                    apply ih
                    have harith : st.stack.length - 1 + 1 = st.stack.length := by omega
                    rw [harith] at h
                    simpa [hrest2, hstk] using h
                · rw [run]; unfold step; rw [hb]
                  simp [hop, hob, hv, hg, RunResult.isUnderflow]
          · simp at h

/-- C9: bytecode from a successful `parse` is stack-balanced — running
any compiled chunk on a fresh evaluation stack (whatever the globals),
every pop and peek finds the values it needs: the run never ends in a
stack underflow. -/
theorem c9_compiled_code_stack_safe (fuel : Nat) (src : String) (ch : Chunk)
    (h : Parser.parse fuel (Parser.new src) = .ok ch) :
    ∀ (g : Nat) (gl : List (String × Value)) (out : List String),
      (run g ⟨ch, 0, ⟨0, 0⟩, [], gl, out⟩).isUnderflow = false := by
  intro g gl out
  apply run_no_underflow
  simpa using parse_closed fuel _ ch h

/-- Witness for `c9_compiled_code_stack_safe`: the compilation of
`print 1;` runs without stack underflow. -/
theorem c9_compiled_code_stack_safe_witness :
    (run 20 (⟨⟨[⟨1, 1⟩, ⟨0, 1⟩, ⟨14, 1⟩, ⟨0, 1⟩], [.number 1]⟩, 0, ⟨0, 0⟩,
      [], [], []⟩ : VMState)).isUnderflow = false :=
  c9_compiled_code_stack_safe 50 "print 1;"
    ⟨[⟨1, 1⟩, ⟨0, 1⟩, ⟨14, 1⟩, ⟨0, 1⟩], [.number 1]⟩ (by decide) 20 [] []
